import Mathlib

set_option maxRecDepth 8192

/-!
Shallow embedding of the seed15 repository (src/src/lib.rs, src/src/phrase.rs,
src/src/keypair.rs).

Rust strings are modelled as lists of UTF-8 bytes (`List Nat`, each byte < 256);
a seed is a list of 16 bytes.  The word dictionary (`crate::dictionary`) and the
SHA-256 primitive (`sha2` crate) are collaborators that are not part of src/:
the dictionary's structural contract is modelled from the spec below, and the
hash is a parameter `hash : List Nat → List Nat` standing for SHA-256.
-/

namespace Seed15

/-- SEED_ENTROPY_WORDS from src/src/phrase.rs line 19. -/
def SEED_ENTROPY_WORDS : Nat := 13

/-- SEED_CHECKSUM_WORDS from src/src/phrase.rs line 25. -/
def SEED_CHECKSUM_WORDS : Nat := 2

/-- wordIndexAt embeds the inner loop of seed_to_seed_phrase
(src/src/phrase.rs lines 33-55) that assembles the index of entropy word i.
The source walks a cursor (current_byte, current_bit) across the seed; since
every word before word i consumes exactly 10 bits, the cursor at bit j of
word i is exactly ((10*i+j) / 8, (10*i+j) % 8), which is used here directly. -/
def wordIndexAt (seed : List Nat) (i : Nat) : Nat :=
  let bits := if i = SEED_ENTROPY_WORDS - 1 then 8 else 10
  (List.range bits).foldl
    (fun word_index j =>
      if 0 < (seed.getD ((10 * i + j) / 8) 0) &&& (1 <<< (8 - ((10 * i + j) % 8) - 1))
      then word_index ||| (1 <<< (bits - j - 1))
      else word_index)
    0

/-- checksumWordIdxs embeds the index computation of seed_to_checksum_words
(src/src/phrase.rs lines 178-185), with the digest supplied by the hash
parameter (the source calls Sha256 from the external sha2 crate). -/
def checksumWordIdxs (hash : List Nat → List Nat) (seed : List Nat) : Nat × Nat :=
  let result := hash seed
  let word1 := (((result.getD 0 0) <<< 8) + result.getD 1 0) >>> 6
  let word2 := ((((result.getD 1 0) <<< 10) &&& 0xffff) + ((result.getD 2 0) <<< 2)) >>> 6
  (word1, word2)

/-- seed_to_checksum_words from src/src/phrase.rs lines 170-187: the two
checksum dictionary words for a seed. -/
def seed_to_checksum_words (D : List (List Nat)) (hash : List Nat → List Nat)
    (seed : List Nat) : List (List Nat) :=
  [D.getD (checksumWordIdxs hash seed).1 [], D.getD (checksumWordIdxs hash seed).2 []]

/-- seed_to_seed_phrase from src/src/phrase.rs lines 28-71: emit the 13 entropy
words separated by single spaces (byte 32), then append the 2 checksum words. -/
def seed_to_seed_phrase (D : List (List Nat)) (hash : List Nat → List Nat)
    (seed : List Nat) : List Nat :=
  let entropy := (List.range SEED_ENTROPY_WORDS).foldl
    (fun phrase i =>
      (if i ≠ 0 then phrase ++ [32] else phrase) ++ D.getD (wordIndexAt seed i) []) []
  let cw := seed_to_checksum_words D hash seed
  entropy ++ [32] ++ cw.getD 0 [] ++ [32] ++ cw.getD 1 []

/-- splitOnSpace embeds Rust str::split on a single-space pattern
(src/src/phrase.rs line 76): every space byte separates tokens, the empty
string yields one empty token, consecutive spaces yield empty tokens. -/
def splitOnSpace : List Nat → List (List Nat)
  | [] => [[]]
  | b :: rest =>
    if b = 32 then [] :: splitOnSpace rest
    else
      match splitOnSpace rest with
      | [] => [[b]]
      | t :: ts => (b :: t) :: ts

/-- isCharBoundary embeds str::is_char_boundary: index 0 is a boundary, the
length is a boundary, and an interior index is a boundary iff the byte there
is not a UTF-8 continuation byte (byte < 0x80 or byte ≥ 0xC0).  Rust byte
slicing of a str panics when the cut is not at a char boundary. -/
def isCharBoundary (s : List Nat) (i : Nat) : Bool :=
  if i = 0 then true
  else if i < s.length then (s.getD i 0 < 0x80 || 0xC0 ≤ s.getD i 0)
  else i == s.length

/-- TruncResult is the outcome of the truncation loop of seed_phrase_to_seed
(src/src/phrase.rs lines 89-94): a slice outside a char boundary is a Rust
panic, a word shorter than the unique-prefix length is a bail. -/
inductive TruncResult where
  | panicked : TruncResult
  | tooShort : TruncResult
  | ok : List (List Nat) → TruncResult
deriving DecidableEq

/-- truncateWords embeds the loop at src/src/phrase.rs lines 89-94: each word
is length-checked and then byte-sliced to its first P bytes, in order. -/
def truncateWords (P : Nat) : List (List Nat) → TruncResult
  | [] => .ok []
  | w :: ws =>
    if w.length < P then .tooShort
    else if isCharBoundary w P then
      match truncateWords P ws with
      | .ok toks => .ok (w.take P :: toks)
      | r => r
    else .panicked

/-- SeedErr enumerates the bail! sites of seed_phrase_to_seed
(src/src/phrase.rs lines 79, 91, 113, 124, 151, 158). -/
inductive SeedErr where
  | wordCount : Nat → SeedErr
  | malformedWord : SeedErr
  | unknownWord : List Nat → SeedErr
  | outOfRangeWord : List Nat → SeedErr
  | checksumOne : List Nat → List Nat → SeedErr
  | checksumTwo : List Nat → List Nat → SeedErr
deriving DecidableEq

/-- DecodeResult is the observable outcome of seed_phrase_to_seed: a Rust
panic, a typed error (anyhow bail), or a decoded 16 byte seed. -/
inductive DecodeResult where
  | panicked : DecodeResult
  | err : SeedErr → DecodeResult
  | ok : List Nat → DecodeResult
deriving DecidableEq

/-- findWordIdx embeds the dictionary scan of src/src/phrase.rs lines 103-111:
walk the dictionary in order counting words until the first word whose first P
bytes equal the (already truncated) token. -/
def findWordIdx (P : Nat) (tok : List Nat) : List (List Nat) → Option Nat
  | [] => none
  | w :: ws =>
    if w.take P = tok then some 0
    else (findWordIdx P tok ws).map (· + 1)

/-- resolveAll resolves each (truncated) entropy token in order to its
dictionary index, failing at the first token not found
(src/src/phrase.rs lines 101-117). -/
def resolveAll (D : List (List Nat)) (P : Nat) : List (List Nat) → Except SeedErr (List Nat)
  | [] => .ok []
  | t :: ts =>
    match findWordIdx P t D with
    | none => .error (.unknownWord t)
    | some idx => (resolveAll D P ts).map (fun r => idx :: r)

/-- setSeedBit embeds src/src/phrase.rs line 134: set bit (p % 8), counted from
the most significant side, of seed byte (p / 8). -/
def setSeedBit (s : List Nat) (p : Nat) : List Nat :=
  s.set (p / 8) ((s.getD (p / 8) 0) ||| (1 <<< (8 - p % 8 - 1)))

/-- packWord embeds the bit-packing loop of src/src/phrase.rs lines 130-143 for
entropy word i: bit j (most significant first) of the word index lands at
absolute seed bit 10*i + j, since every earlier word consumed exactly 10 bits. -/
def packWord (i idx : Nat) (s : List Nat) : List Nat :=
  let bits := if i = SEED_ENTROPY_WORDS - 1 then 8 else 10
  (List.range bits).foldl
    (fun acc j =>
      if 0 < idx &&& (1 <<< (bits - j - 1)) then setSeedBit acc (10 * i + j) else acc)
    s

/-- packSeed embeds the seed assembly of src/src/phrase.rs lines 98-144 given
the 13 resolved word indices, starting from the zeroed 16 byte seed. -/
def packSeed (idxs : List Nat) : List Nat :=
  (List.range SEED_ENTROPY_WORDS).foldl
    (fun s i => packWord i (idxs.getD i 0) s) (List.replicate 16 0)

/-- decodeChecksum embeds the checksum comparison of src/src/phrase.rs lines
146-166: recompute the checksum words of the assembled seed, truncate them to
their first P bytes, and compare against tokens 14 and 15 of the phrase. -/
def decodeChecksum (D : List (List Nat)) (P : Nat) (hash : List Nat → List Nat)
    (seed : List Nat) (toks : List (List Nat)) : DecodeResult :=
  let cw := seed_to_checksum_words D hash seed
  if (cw.getD 0 []).take P ≠ toks.getD 13 [] then
    .err (.checksumOne ((cw.getD 0 []).take P) (toks.getD 13 []))
  else if (cw.getD 1 []).take P ≠ toks.getD 14 [] then
    .err (.checksumTwo ((cw.getD 1 []).take P) (toks.getD 14 []))
  else .ok seed

/-- decodeBound embeds the deliberate bound check of src/src/phrase.rs lines
120-129 (the 13th word index must not exceed 255) followed by the bit packing
of the seed. -/
def decodeBound (D : List (List Nat)) (P : Nat) (hash : List Nat → List Nat)
    (idxs : List Nat) (toks : List (List Nat)) : DecodeResult :=
  if 255 < idxs.getD 12 0 then
    .err (.outOfRangeWord ((D.getD (idxs.getD 12 0) []).take P))
  else decodeChecksum D P hash (packSeed idxs) toks

/-- decodeIdxs embeds the dictionary resolution of the 13 entropy tokens
(src/src/phrase.rs lines 101-117), failing at the first unknown token. -/
def decodeIdxs (D : List (List Nat)) (P : Nat) (hash : List Nat → List Nat)
    (toks : List (List Nat)) : DecodeResult :=
  match resolveAll D P (toks.take SEED_ENTROPY_WORDS) with
  | .error e => .err e
  | .ok idxs => decodeBound D P hash idxs toks

/-- decodeTrunc embeds the truncation loop of src/src/phrase.rs lines 89-94 and
dispatches to the later stages. -/
def decodeTrunc (D : List (List Nat)) (P : Nat) (hash : List Nat → List Nat)
    (all_words : List (List Nat)) : DecodeResult :=
  match truncateWords P all_words with
  | .panicked => .panicked
  | .tooShort => .err .malformedWord
  | .ok toks => decodeIdxs D P hash toks

/-- seed_phrase_to_seed from src/src/phrase.rs lines 74-167, step by step:
split on spaces, check the word count, length-check and truncate every token,
resolve the first 13 tokens to dictionary indices, enforce the 255 bound on
the 13th index, pack the seed, then compare the recomputed checksum word
truncations against tokens 14 and 15.  The sequential gates of the source are
the stage functions above. -/
def seed_phrase_to_seed (D : List (List Nat)) (P : Nat) (hash : List Nat → List Nat)
    (phrase : List Nat) : DecodeResult :=
  let all_words := splitOnSpace phrase
  if all_words.length ≠ SEED_ENTROPY_WORDS + SEED_CHECKSUM_WORDS then
    .err (.wordCount all_words.length)
  else decodeTrunc D P hash all_words

/-- valid_seed_phrase from src/src/phrase.rs lines 190-195: succeeds exactly
when decoding succeeds (the source rewraps the error message, which only
changes the text). -/
def valid_seed_phrase (D : List (List Nat)) (P : Nat) (hash : List Nat → List Nat)
    (phrase : List Nat) : DecodeResult :=
  seed_phrase_to_seed D P hash phrase

/-- joinW joins words with single space bytes; seed_to_seed_phrase is proved
below to produce exactly this shape. -/
def joinW : List (List Nat) → List Nat
  | [] => []
  | [w] => w
  | w :: ws => w ++ 32 :: joinW ws

/-- beNat reads a byte list as a big-endian natural number; used only to state
the spec-side chunk formulas. -/
def beNat : List Nat → Nat
  | [] => 0
  | b :: rest => b * 2 ^ (8 * rest.length) + beNat rest

/-- Modelled from the spec: entropy word chunks.  The spec treats the seed as
a 128-bit big-endian bitstream consumed most-significant-bit first; chunk i
(for i < 12) is the i-th consecutive 10-bit group, assembled MSB-first. -/
def specChunk (seed : List Nat) (i : Nat) : Nat :=
  beNat seed / 2 ^ (118 - 10 * i) % 1024

/-- Modelled from the spec: the 13th entropy word index is formed from the
remaining 8 bits of the 128-bit stream, i.e. the low byte. -/
def specLastChunk (seed : List Nat) : Nat :=
  beNat seed % 256

/-- Modelled from the spec: checksum formula word1 = (digest0 << 8 | digest1) >> 6. -/
def specCkW1 (d0 d1 : Nat) : Nat := ((d0 <<< 8) ||| d1) >>> 6

/-- Modelled from the spec: checksum formula
word2 = ((digest1 << 10 | digest2 << 2) & 0xFFFF) >> 6. -/
def specCkW2 (d1 d2 : Nat) : Nat := (((d1 <<< 10) ||| (d2 <<< 2)) &&& 0xffff) >>> 6

/-- ValidSeed: the Rust type Seed = [u8; 16] (src/src/lib.rs line 47), i.e. a
list of exactly 16 bytes, each below 256. -/
def ValidSeed (s : List Nat) : Prop := s.length = 16 ∧ ∀ b ∈ s, b < 256

/-- Modelled from the spec: the dictionary contract of crate::dictionary,
which is part of the repository but not under src/.  The spec requires a fixed
ordered list of exactly 1024 words, every word uniquely identified by its
first P bytes (P = DICTIONARY_UNIQUE_PREFIX); words are english dictionary
words, hence ASCII and free of space bytes, and at least P bytes long. -/
structure DictContract (D : List (List Nat)) (P : Nat) : Prop where
  size : D.length = 1024
  minLen : ∀ w ∈ D, P ≤ w.length
  ascii : ∀ w ∈ D, ∀ b ∈ w, b < 128 ∧ b ≠ 32
  uniq : ∀ i j, i < D.length → j < D.length →
    (D.getD i []).take P = (D.getD j []).take P → i = j

/-- HashBytes: the digest function produces genuine bytes (each < 256); true
of SHA-256, which the source obtains from the external sha2 crate. -/
def HashBytes (hash : List Nat → List Nat) : Prop :=
  ∀ s, ∀ b ∈ hash s, b < 256

/-- demoWord i spells index i with three distinct letters (base-16 digits over
a 16-letter alphabet starting at 97); used to build a concrete dictionary for
witnesses. -/
def demoWord (i : Nat) : List Nat :=
  [97 + i / 256, 97 + i / 16 % 16, 97 + i % 16]

/-- demoDict is a concrete 1024-entry dictionary satisfying DictContract with
unique-prefix length 3; it instantiates the spec-modelled dictionary contract
in witnesses. -/
def demoDict : List (List Nat) := (List.range 1024).map demoWord

/-- demoHash is a concrete stand-in digest function (all-zero 32-byte digest)
used to instantiate the hash parameter in witnesses. -/
def demoHash : List Nat → List Nat := fun _ => List.replicate 32 0

/-- isCont tests for a UTF-8 continuation byte. -/
def isCont (b : Nat) : Bool := 0x80 ≤ b && b ≤ 0xBF

/-- utf8Step gives, for a leading byte, the list of allowed (lo, hi) ranges
for the following continuation bytes of the encoded scalar value (RFC 3629
ranges), or none when the byte cannot start a character. -/
def utf8Step (b : Nat) : Option (List (Nat × Nat)) :=
  if b ≤ 0x7F then some []
  else if 0xC2 ≤ b ∧ b ≤ 0xDF then some [(0x80, 0xBF)]
  else if b = 0xE0 then some [(0xA0, 0xBF), (0x80, 0xBF)]
  else if (0xE1 ≤ b ∧ b ≤ 0xEC) ∨ b = 0xEE ∨ b = 0xEF then
    some [(0x80, 0xBF), (0x80, 0xBF)]
  else if b = 0xED then some [(0x80, 0x9F), (0x80, 0xBF)]
  else if b = 0xF0 then some [(0x90, 0xBF), (0x80, 0xBF), (0x80, 0xBF)]
  else if 0xF1 ≤ b ∧ b ≤ 0xF3 then some [(0x80, 0xBF), (0x80, 0xBF), (0x80, 0xBF)]
  else if b = 0xF4 then some [(0x80, 0x8F), (0x80, 0xBF), (0x80, 0xBF)]
  else none

/-- utf8Run validates a byte list against a list of expected continuation-byte
ranges followed by further characters. -/
def utf8Run : List (Nat × Nat) → List Nat → Bool
  | [], [] => true
  | _ :: _, [] => false
  | [], b :: rest =>
    match utf8Step b with
    | none => false
    | some exp => utf8Run exp rest
  | (lo, hi) :: exp, b :: rest => (lo ≤ b && b ≤ hi) && utf8Run exp rest

/-- utf8Valid decides whether a byte list is well-formed UTF-8; it models the
validity invariant Rust enforces on every str, since seed_phrase_to_seed
receives a &str. -/
def utf8Valid (s : List Nat) : Bool := utf8Run [] s

/-- SeedCsprng from src/src/keypair.rs lines 13-16: the restricted random
source holding the seed and a single-use flag. -/
structure SeedCsprng where
  seed : List Nat
  used : Bool
deriving DecidableEq

/-- RngOutcome: a call on SeedCsprng either panics (Rust panic!) or returns a
value together with the updated generator state. -/
inductive RngOutcome (α : Type) where
  | panicked : RngOutcome α
  | ok : α → SeedCsprng → RngOutcome α
deriving DecidableEq

/-- next_u32 from src/src/keypair.rs lines 25-27: always panics. -/
def next_u32 (_ : SeedCsprng) : RngOutcome Nat := .panicked

/-- next_u64 from src/src/keypair.rs lines 29-31: always panics. -/
def next_u64 (_ : SeedCsprng) : RngOutcome Nat := .panicked

/-- fill_bytes from src/src/keypair.rs lines 33-46: panic unless the
destination is exactly 32 bytes, panic if already used, otherwise mark used
and write the SHA-256 digest of the stored seed (hash parameter). -/
def fill_bytes (hash : List Nat → List Nat) (g : SeedCsprng) (destLen : Nat) :
    RngOutcome (List Nat) :=
  if destLen ≠ 32 then .panicked
  else if g.used then .panicked
  else .ok (hash g.seed) { g with used := true }

/-- try_fill_bytes from src/src/keypair.rs lines 48-50: always panics, never
returning a recoverable rand_core::Error. -/
def try_fill_bytes (_ : SeedCsprng) (_ : Nat) : RngOutcome (List Nat) := .panicked

/-- initialCsprng: the generator constructed by keypair_from_seed
(src/src/keypair.rs line 55) before it is handed to Keypair::generate. -/
def initialCsprng (seed : List Nat) : SeedCsprng := { seed := seed, used := false }

/-! ### Bit-level helpers -/

/-- wBits is the bit width of entropy word i: 8 for the 13th word, 10 otherwise. -/
def wBits (i : Nat) : Nat := if i = 12 then 8 else 10

/-- byteBit reads absolute bit p of a byte list, counting bits of each byte
from the most significant side, exactly as the Rust cursor does. -/
def byteBit (s : List Nat) (p : Nat) : Bool := (s.getD (p / 8) 0).testBit (7 - p % 8)

/-- wi names the entropy word covering absolute seed bit q. -/
def wi (q : Nat) : Nat := min (q / 10) 12

theorem and_one_shiftLeft_pos_iff (x k : Nat) :
    (0 < x &&& (1 <<< k)) ↔ x.testBit k = true := by
  rw [Nat.one_shiftLeft]
  constructor
  · intro h
    by_contra hb
    have hb' : x.testBit k = false := by
      cases hx : x.testBit k
      · rfl
      · exact absurd hx hb
    have hz : x &&& 2 ^ k = 0 := by
      apply Nat.eq_of_testBit_eq
      intro j
      simp only [Nat.testBit_and, Nat.testBit_two_pow, Nat.zero_testBit]
      by_cases hkj : k = j
      · subst hkj
        simp [hb']
      · simp [hkj]
    omega
  · intro h
    have : (x &&& 2 ^ k).testBit k = true := by
      simp [Nat.testBit_and, Nat.testBit_two_pow, h]
    have := Nat.testBit_implies_ge this
    have : 0 < 2 ^ k := Nat.pos_pow_of_pos k (by omega)
    omega

theorem foldl_orTwoPow_testBit (g : Nat → Bool) (f : Nat → Nat) :
    ∀ (n : Nat) (acc b : Nat),
      (((List.range n).foldl (fun a j => if g j then a ||| (1 <<< f j) else a) acc).testBit b)
        = (acc.testBit b || (List.range n).any fun j => g j && decide (f j = b)) := by
  intro n
  induction n with
  | zero => simp
  | succ n ih =>
    intro acc b
    rw [List.range_succ, List.foldl_append, List.any_append]
    simp only [List.foldl_cons, List.foldl_nil, List.any_cons, List.any_nil]
    by_cases hg : g n
    · rw [if_pos hg, Nat.testBit_or, ih, Nat.one_shiftLeft, Nat.testBit_two_pow]
      simp only [hg, Bool.true_and, Bool.or_false, Bool.or_assoc]
    · rw [if_neg hg]
      simp only [hg, Bool.false_and, Bool.or_false, Bool.false_or]
      exact ih acc b

theorem foldl_orTwoPow_lt (g : Nat → Bool) (f : Nat → Nat) (c : Nat)
    (hf : ∀ j, f j < c) :
    ∀ (n : Nat) (acc : Nat), acc < 2 ^ c →
      ((List.range n).foldl (fun a j => if g j then a ||| (1 <<< f j) else a) acc) < 2 ^ c := by
  intro n
  induction n with
  | zero => exact fun acc h => h
  | succ n ih =>
    intro acc hacc
    rw [List.range_succ, List.foldl_append]
    simp only [List.foldl_cons, List.foldl_nil]
    by_cases hg : g n
    · simp only [hg, if_true]
      apply Nat.or_lt_two_pow (ih acc hacc)
      rw [Nat.one_shiftLeft]
      exact Nat.pow_lt_pow_right (by omega) (hf n)
    · simp only [hg, if_false]
      exact ih acc hacc

/-- wordIndexAt unfolded to the wBits helper form. -/
theorem wordIndexAt_eq (seed : List Nat) (i : Nat) :
    wordIndexAt seed i =
      (List.range (wBits i)).foldl
        (fun a j => if byteBit seed (10 * i + j) then a ||| (1 <<< (wBits i - j - 1)) else a)
        0 := by
  unfold wordIndexAt wBits SEED_ENTROPY_WORDS
  apply List.foldl_ext
  intro a j _
  have h8 : 8 - (10 * i + j) % 8 - 1 = 7 - (10 * i + j) % 8 := by omega
  rw [h8]
  by_cases hb : byteBit seed (10 * i + j)
  · rw [if_pos hb, if_pos]
    rw [and_one_shiftLeft_pos_iff]
    exact hb
  · rw [if_neg hb, if_neg]
    rw [and_one_shiftLeft_pos_iff]
    exact hb

theorem wordIndexAt_testBit (seed : List Nat) (i b : Nat) :
    (wordIndexAt seed i).testBit b =
      (decide (b < wBits i) && byteBit seed (10 * i + (wBits i - 1 - b))) := by
  rw [wordIndexAt_eq, foldl_orTwoPow_testBit]
  simp only [Nat.zero_testBit, Bool.false_or]
  by_cases hb : b < wBits i
  · have hdec : decide (b < wBits i) = true := by simp [hb]
    rw [hdec, Bool.true_and]
    cases hby : byteBit seed (10 * i + (wBits i - 1 - b))
    · apply List.any_eq_false.2
      intro j hj
      simp only [List.mem_range] at hj
      by_cases hjb : wBits i - j - 1 = b
      · have hj' : j = wBits i - 1 - b := by omega
        subst hj'
        simp [hby]
      · simp [hjb]
    · apply List.any_eq_true.2
      refine ⟨wBits i - 1 - b, ?_, ?_⟩
      · simp only [List.mem_range]; omega
      · have hb' : wBits i - (wBits i - 1 - b) - 1 = b := by omega
        simp [hb', hby]
  · have hdec : decide (b < wBits i) = false := by simp [hb]
    rw [hdec, Bool.false_and]
    apply List.any_eq_false.2
    intro j hj
    simp only [List.mem_range] at hj
    have hne : wBits i - j - 1 ≠ b := by omega
    simp [hne]

theorem wordIndexAt_lt (seed : List Nat) (i : Nat) :
    wordIndexAt seed i < 2 ^ wBits i := by
  rw [wordIndexAt_eq]
  apply foldl_orTwoPow_lt
  · intro j
    have : 0 < wBits i := by unfold wBits; split <;> omega
    omega
  · exact Nat.pos_pow_of_pos _ (by omega)

theorem wordIndexAt_lt_1024 (seed : List Nat) (i : Nat) :
    wordIndexAt seed i < 1024 := by
  have h := wordIndexAt_lt seed i
  have hb : 2 ^ wBits i ≤ 2 ^ 10 := by
    apply Nat.pow_le_pow_right (by omega)
    unfold wBits; split <;> omega
  omega

theorem wordIndexAt_last_lt_256 (seed : List Nat) :
    wordIndexAt seed 12 < 256 := by
  have h := wordIndexAt_lt seed 12
  unfold wBits at h
  simpa using h

/-! ### Packing characterization -/

theorem length_setSeedBit (s : List Nat) (p : Nat) :
    (setSeedBit s p).length = s.length := by
  unfold setSeedBit
  exact List.length_set ..

theorem byteBit_setSeedBit (s : List Nat) (p q : Nat) (hp : p / 8 < s.length) :
    byteBit (setSeedBit s p) q = (byteBit s q || decide (p = q)) := by
  unfold setSeedBit byteBit
  by_cases hqp : q / 8 = p / 8
  · rw [hqp]
    rw [List.getD_eq_getElem?_getD, List.getElem?_set_self hp]
    simp only [Option.getD_some]
    have h8 : 8 - p % 8 - 1 = 7 - p % 8 := by omega
    rw [h8, Nat.testBit_or, Nat.one_shiftLeft, Nat.testBit_two_pow]
    have heq : (7 - p % 8 = 7 - q % 8) ↔ (p = q) := by omega
    have hd : decide (7 - p % 8 = 7 - q % 8) = decide (p = q) := decide_eq_decide.2 heq
    rw [hd]
  · rw [List.getD_eq_getElem?_getD, List.getElem?_set_ne (by omega),
      ← List.getD_eq_getElem?_getD]
    have hne : decide (p = q) = false := by
      simp only [decide_eq_false_iff_not]
      omega
    simp [hne]

theorem setSeedBit_byte_lt (s : List Nat) (p : Nat)
    (h : ∀ k, s.getD k 0 < 256) : ∀ k, (setSeedBit s p).getD k 0 < 256 := by
  intro k
  unfold setSeedBit
  by_cases hk : k = p / 8
  · by_cases hlen : p / 8 < s.length
    · rw [hk, List.getD_eq_getElem?_getD, List.getElem?_set_self hlen]
      simp only [Option.getD_some]
      have h1 : s.getD (p / 8) 0 < 2 ^ 8 := by have := h (p / 8); omega
      have h2 : 1 <<< (8 - p % 8 - 1) < 2 ^ 8 := by
        rw [Nat.one_shiftLeft]
        have h3 : (2 : Nat) ^ (8 - p % 8 - 1) ≤ 2 ^ 7 := Nat.pow_le_pow_right (by omega) (by omega)
        omega
      have := Nat.or_lt_two_pow h1 h2
      omega
    · rw [List.set_eq_of_length_le (by omega)]
      exact h k
  · rw [List.getD_eq_getElem?_getD, List.getElem?_set_ne (by omega),
      ← List.getD_eq_getElem?_getD]
    exact h k

/-- packWord unfolded to the wBits helper form, with the bit test expressed
through Nat.testBit. -/
theorem packWord_eq (i idx : Nat) (s : List Nat) :
    packWord i idx s =
      (List.range (wBits i)).foldl
        (fun acc j => if idx.testBit (wBits i - j - 1) then setSeedBit acc (10 * i + j) else acc)
        s := by
  unfold packWord wBits SEED_ENTROPY_WORDS
  apply List.foldl_ext
  intro a j _
  by_cases hb : idx.testBit ((if i = 12 then 8 else 10) - j - 1)
  · rw [if_pos hb, if_pos]
    rw [and_one_shiftLeft_pos_iff]
    exact hb
  · rw [if_neg hb, if_neg]
    rw [and_one_shiftLeft_pos_iff]
    exact hb

theorem foldl_setSeedBit_length (g : Nat → Bool) (base : Nat) :
    ∀ (n : Nat) (s : List Nat),
      (((List.range n).foldl
        (fun acc j => if g j then setSeedBit acc (base + j) else acc) s)).length = s.length := by
  intro n
  induction n with
  | zero => intro s; rfl
  | succ n ih =>
    intro s
    rw [List.range_succ, List.foldl_append]
    simp only [List.foldl_cons, List.foldl_nil]
    split
    · rw [length_setSeedBit]
      exact ih s
    · exact ih s

theorem foldl_setSeedBit_byte_lt (g : Nat → Bool) (base : Nat) :
    ∀ (n : Nat) (s : List Nat), (∀ k, s.getD k 0 < 256) →
      ∀ k, (((List.range n).foldl
        (fun acc j => if g j then setSeedBit acc (base + j) else acc) s)).getD k 0 < 256 := by
  intro n
  induction n with
  | zero => exact fun s h => h
  | succ n ih =>
    intro s hs
    rw [List.range_succ, List.foldl_append]
    simp only [List.foldl_cons, List.foldl_nil]
    split
    · exact setSeedBit_byte_lt _ _ (ih s hs)
    · exact ih s hs

theorem foldl_setSeedBit_byteBit (g : Nat → Bool) (base : Nat) :
    ∀ (n : Nat) (s : List Nat), (∀ j, j < n → (base + j) / 8 < s.length) → ∀ q,
      byteBit (((List.range n).foldl
          (fun acc j => if g j then setSeedBit acc (base + j) else acc) s)) q
        = (byteBit s q || (List.range n).any fun j => g j && decide (base + j = q)) := by
  intro n
  induction n with
  | zero => intro s _ q; simp
  | succ n ih =>
    intro s hlen q
    rw [List.range_succ, List.foldl_append, List.any_append]
    simp only [List.foldl_cons, List.foldl_nil, List.any_cons, List.any_nil]
    have hlen' : ∀ j, j < n → (base + j) / 8 < s.length := fun j hj => hlen j (by omega)
    by_cases hg : g n
    · rw [if_pos hg, byteBit_setSeedBit _ _ _
        (by rw [foldl_setSeedBit_length]; exact hlen n (by omega))]
      rw [ih s hlen' q]
      simp only [hg, Bool.true_and, Bool.or_false, Bool.or_assoc]
    · rw [if_neg hg]
      rw [ih s hlen' q]
      simp only [hg, Bool.false_and, Bool.or_false, Bool.false_or]

theorem packWord_length (i idx : Nat) (s : List Nat) :
    (packWord i idx s).length = s.length := by
  rw [packWord_eq]
  exact foldl_setSeedBit_length _ (10 * i) _ s

theorem packWord_byte_lt (i idx : Nat) (s : List Nat)
    (h : ∀ k, s.getD k 0 < 256) : ∀ k, (packWord i idx s).getD k 0 < 256 := by
  rw [packWord_eq]
  exact foldl_setSeedBit_byte_lt _ (10 * i) _ s h

theorem packWord_byteBit (i idx : Nat) (s : List Nat) (hs : s.length = 16)
    (hi : i ≤ 12) (q : Nat) :
    byteBit (packWord i idx s) q =
      (byteBit s q ||
        ((decide (10 * i ≤ q) && decide (q < 10 * i + wBits i)) &&
          idx.testBit (wBits i - 1 - (q - 10 * i)))) := by
  have hwb : wBits i = if i = 12 then 8 else 10 := rfl
  have hwb10 : wBits i ≤ 10 := by rw [hwb]; split <;> omega
  rw [packWord_eq, foldl_setSeedBit_byteBit]
  · congr 1
    by_cases hq : 10 * i ≤ q ∧ q < 10 * i + wBits i
    · have hd1 : decide (10 * i ≤ q) = true := by simp [hq.1]
      have hd2 : decide (q < 10 * i + wBits i) = true := by simp [hq.2]
      rw [hd1, hd2]
      simp only [Bool.true_and]
      cases hby : idx.testBit (wBits i - 1 - (q - 10 * i))
      · apply List.any_eq_false.2
        intro j hj
        simp only [List.mem_range] at hj
        by_cases hjq : 10 * i + j = q
        · have hj' : j = q - 10 * i := by omega
          subst hj'
          have he : wBits i - (q - 10 * i) - 1 = wBits i - 1 - (q - 10 * i) := by omega
          rw [he, hby]
          simp
        · simp [hjq]
      · apply List.any_eq_true.2
        refine ⟨q - 10 * i, ?_, ?_⟩
        · simp only [List.mem_range]; omega
        · have he : wBits i - (q - 10 * i) - 1 = wBits i - 1 - (q - 10 * i) := by omega
          rw [he, hby]
          simp only [Bool.true_and, decide_eq_true_eq]
          omega
    · have hcond : (decide (10 * i ≤ q) && decide (q < 10 * i + wBits i)) = false := by
        by_cases h1 : 10 * i ≤ q
        · have h2 : ¬ q < 10 * i + wBits i := fun hh => hq ⟨h1, hh⟩
          simp [h2]
        · simp [h1]
      rw [hcond, Bool.false_and]
      apply List.any_eq_false.2
      intro j hj
      simp only [List.mem_range] at hj
      have hjq : 10 * i + j ≠ q := by omega
      simp [hjq]
  · intro j hj
    rw [hs]
    by_cases h12 : i = 12
    · rw [h12] at hj ⊢
      have : wBits 12 = 8 := rfl
      omega
    · have : wBits i = 10 := by rw [hwb]; simp [h12]
      omega

theorem replicate16_byteBit (q : Nat) : byteBit (List.replicate 16 0) q = false := by
  unfold byteBit
  have h0 : (List.replicate 16 (0 : Nat)).getD (q / 8) 0 = 0 := by
    rw [List.getD_eq_getElem?_getD, List.getElem?_replicate]
    split <;> rfl
  rw [h0, Nat.zero_testBit]

theorem packSeed_aux_length (idxs : List Nat) :
    ∀ n, ((List.range n).foldl
      (fun s i => packWord i (idxs.getD i 0) s) (List.replicate 16 0)).length = 16 := by
  intro n
  induction n with
  | zero => rfl
  | succ n ih =>
    rw [List.range_succ, List.foldl_append]
    simp only [List.foldl_cons, List.foldl_nil]
    rw [packWord_length]
    exact ih

theorem packSeed_length (idxs : List Nat) : (packSeed idxs).length = 16 :=
  packSeed_aux_length idxs SEED_ENTROPY_WORDS

theorem packSeed_byte_lt (idxs : List Nat) : ∀ k, (packSeed idxs).getD k 0 < 256 := by
  have main : ∀ n, ∀ k, ((List.range n).foldl
      (fun s i => packWord i (idxs.getD i 0) s) (List.replicate 16 0)).getD k 0 < 256 := by
    intro n
    induction n with
    | zero =>
      intro k
      simp only [List.range_zero, List.foldl_nil]
      rw [List.getD_eq_getElem?_getD, List.getElem?_replicate]
      split <;> simp
    | succ n ih =>
      rw [List.range_succ, List.foldl_append]
      simp only [List.foldl_cons, List.foldl_nil]
      exact packWord_byte_lt _ _ _ ih
  exact main SEED_ENTROPY_WORDS

theorem packSeed_aux_byteBit (idxs : List Nat) :
    ∀ n, n ≤ 13 → ∀ q,
      byteBit ((List.range n).foldl
          (fun s i => packWord i (idxs.getD i 0) s) (List.replicate 16 0)) q
        = (List.range n).any fun i =>
            (decide (10 * i ≤ q) && decide (q < 10 * i + wBits i)) &&
              (idxs.getD i 0).testBit (wBits i - 1 - (q - 10 * i)) := by
  intro n
  induction n with
  | zero =>
    intro _ q
    simp only [List.range_zero, List.foldl_nil, List.any_nil, replicate16_byteBit]
  | succ n ih =>
    intro hn q
    rw [List.range_succ, List.foldl_append, List.any_append]
    simp only [List.foldl_cons, List.foldl_nil, List.any_cons, List.any_nil]
    rw [packWord_byteBit _ _ _ (packSeed_aux_length idxs n) (by omega)]
    rw [ih (by omega) q]
    simp only [Bool.or_false]

theorem packSeed_byteBit (idxs : List Nat) (q : Nat) (hq : q < 128) :
    byteBit (packSeed idxs) q
      = (idxs.getD (wi q) 0).testBit (wBits (wi q) - 1 - (q - 10 * wi q)) := by
  have h13 : packSeed idxs = (List.range 13).foldl
      (fun s i => packWord i (idxs.getD i 0) s) (List.replicate 16 0) := rfl
  rw [h13, packSeed_aux_byteBit idxs 13 (by omega) q]
  have hcover : ∀ i, i < 13 →
      ((10 * i ≤ q ∧ q < 10 * i + wBits i) ↔ i = wi q) := by
    intro i hi
    unfold wi
    by_cases h12 : i = 12
    · subst h12
      have : wBits 12 = 8 := rfl
      rw [this]
      omega
    · have : wBits i = 10 := by unfold wBits; simp [h12]
      rw [this]
      omega
  cases hby : (idxs.getD (wi q) 0).testBit (wBits (wi q) - 1 - (q - 10 * wi q))
  · apply List.any_eq_false.2
    intro i hi
    simp only [List.mem_range] at hi
    by_cases hc : 10 * i ≤ q ∧ q < 10 * i + wBits i
    · have hiw : i = wi q := (hcover i hi).1 hc
      rw [hiw, hby]
      simp
    · have hcond : (decide (10 * i ≤ q) && decide (q < 10 * i + wBits i)) = false := by
        by_cases h1 : 10 * i ≤ q
        · have h2 : ¬ q < 10 * i + wBits i := fun hh => hc ⟨h1, hh⟩
          simp [h2]
        · simp [h1]
      rw [hcond]
      simp
  · apply List.any_eq_true.2
    refine ⟨wi q, ?_, ?_⟩
    · simp only [List.mem_range]
      unfold wi
      omega
    · have hwi : wi q < 13 := by unfold wi; omega
      have hc : 10 * wi q ≤ q ∧ q < 10 * wi q + wBits (wi q) := (hcover _ hwi).2 rfl
      rw [hby]
      simp [hc.1, hc.2]

/-- encIdxs lists the 13 entropy word indices that seed_to_seed_phrase derives
from a seed. -/
def encIdxs (seed : List Nat) : List Nat :=
  (List.range SEED_ENTROPY_WORDS).map (wordIndexAt seed)

theorem getD_map_range {α : Type} (f : Nat → α) (d : α) (n i : Nat) (h : i < n) :
    (((List.range n).map f).getD i d) = f i := by
  rw [List.getD_eq_getElem?_getD, List.getElem?_map, List.getElem?_range h]
  rfl

theorem encIdxs_getD (seed : List Nat) (i : Nat) (h : i < 13) :
    (encIdxs seed).getD i 0 = wordIndexAt seed i :=
  getD_map_range _ _ _ _ h

theorem wi_cover (p : Nat) (hp : p < 128) :
    wi p < 13 ∧ 10 * wi p ≤ p ∧ p < 10 * wi p + wBits (wi p) ∧ 0 < wBits (wi p) := by
  unfold wi
  by_cases h : p < 120
  · have h1 : min (p / 10) 12 = p / 10 := by omega
    rw [h1]
    have h2 : p / 10 ≠ 12 := by omega
    have h3 : wBits (p / 10) = 10 := by unfold wBits; simp [h2]
    rw [h3]
    omega
  · have h1 : min (p / 10) 12 = 12 := by omega
    rw [h1]
    have h3 : wBits 12 = 8 := rfl
    rw [h3]
    omega

theorem getD_lt_256_of_bytes (s : List Nat) (hbytes : ∀ b ∈ s, b < 256) (k : Nat) :
    s.getD k 0 < 256 := by
  by_cases hk : k < s.length
  · have hmem : s.getD k 0 ∈ s := by
      rw [List.getD_eq_getElem?_getD, List.getElem?_eq_getElem hk]
      exact List.getElem_mem hk
    exact hbytes _ hmem
  · rw [List.getD_eq_getElem?_getD, List.getElem?_eq_none (by omega)]
    simp

/-- Core round-trip fact at the bit level: packing the 13 extracted word
indices reassembles the original 16-byte seed. -/
theorem packSeed_encIdxs (s : List Nat) (hlen : s.length = 16)
    (hbytes : ∀ b ∈ s, b < 256) : packSeed (encIdxs s) = s := by
  have hplen : (packSeed (encIdxs s)).length = 16 := packSeed_length _
  apply List.ext_getElem (by omega)
  intro k hk1 hk2
  have hk : k < 16 := by omega
  have hgd : (packSeed (encIdxs s)).getD k 0 = s.getD k 0 := by
    apply Nat.eq_of_testBit_eq
    intro t
    by_cases ht : t < 8
    · have hp : 8 * k + (7 - t) < 128 := by omega
      have e1 : (8 * k + (7 - t)) / 8 = k := by omega
      have e2 : 7 - (8 * k + (7 - t)) % 8 = t := by omega
      have h1 : ((packSeed (encIdxs s)).getD k 0).testBit t
          = byteBit (packSeed (encIdxs s)) (8 * k + (7 - t)) := by
        unfold byteBit
        rw [e1, e2]
      have h2 : (s.getD k 0).testBit t = byteBit s (8 * k + (7 - t)) := by
        unfold byteBit
        rw [e1, e2]
      rw [h1, h2, packSeed_byteBit _ _ hp]
      obtain ⟨hw1, hw2, hw3, hw4⟩ := wi_cover (8 * k + (7 - t)) hp
      rw [encIdxs_getD _ _ hw1, wordIndexAt_testBit]
      have hblt : wBits (wi (8 * k + (7 - t))) - 1 - ((8 * k + (7 - t)) - 10 * wi (8 * k + (7 - t)))
          < wBits (wi (8 * k + (7 - t))) := by omega
      have hd : decide (wBits (wi (8 * k + (7 - t))) - 1
          - ((8 * k + (7 - t)) - 10 * wi (8 * k + (7 - t))) < wBits (wi (8 * k + (7 - t)))) = true := by
        simp [hblt]
      rw [hd, Bool.true_and]
      have e3 : 10 * wi (8 * k + (7 - t)) + (wBits (wi (8 * k + (7 - t))) - 1
          - (wBits (wi (8 * k + (7 - t))) - 1 - ((8 * k + (7 - t)) - 10 * wi (8 * k + (7 - t)))))
          = 8 * k + (7 - t) := by omega
      rw [e3]
    · have hv1 : (packSeed (encIdxs s)).getD k 0 < 2 ^ t := by
        have := packSeed_byte_lt (encIdxs s) k
        have h2t : (2 : Nat) ^ 8 ≤ 2 ^ t := Nat.pow_le_pow_right (by omega) (by omega)
        omega
      have hv2 : s.getD k 0 < 2 ^ t := by
        have := getD_lt_256_of_bytes s hbytes k
        have h2t : (2 : Nat) ^ 8 ≤ 2 ^ t := Nat.pow_le_pow_right (by omega) (by omega)
        omega
      rw [Nat.testBit_lt_two_pow hv1, Nat.testBit_lt_two_pow hv2]
  calc (packSeed (encIdxs s))[k] = (packSeed (encIdxs s)).getD k 0 := by
        rw [List.getD_eq_getElem?_getD, List.getElem?_eq_getElem hk1]
        rfl
    _ = s.getD k 0 := hgd
    _ = s[k] := by
        rw [List.getD_eq_getElem?_getD, List.getElem?_eq_getElem hk2]
        rfl

/-! ### Join and split -/

theorem splitOnSpace_no_space (w : List Nat) (hw : 32 ∉ w) :
    splitOnSpace w = [w] := by
  induction w with
  | nil => rfl
  | cons b rest ih =>
    have hb : b ≠ 32 := fun h => hw (by simp [h])
    have hrest : 32 ∉ rest := fun h => hw (by simp [h])
    unfold splitOnSpace
    rw [if_neg hb, ih hrest]

theorem splitOnSpace_cons (b : Nat) (rest : List Nat) :
    splitOnSpace (b :: rest) =
      if b = 32 then [] :: splitOnSpace rest
      else
        match splitOnSpace rest with
        | [] => [[b]]
        | t :: ts => (b :: t) :: ts := rfl

theorem splitOnSpace_append (w rest : List Nat) (hw : 32 ∉ w) :
    splitOnSpace (w ++ 32 :: rest) = w :: splitOnSpace rest := by
  induction w with
  | nil =>
    simp only [List.nil_append]
    rw [splitOnSpace_cons, if_pos rfl]
  | cons b w ih =>
    have hb : b ≠ 32 := fun h => hw (by simp [h])
    have hw' : 32 ∉ w := fun h => hw (by simp [h])
    simp only [List.cons_append]
    rw [splitOnSpace_cons, if_neg hb, ih hw']

theorem splitOnSpace_joinW (ws : List (List Nat)) (hne : ws ≠ [])
    (hw : ∀ w ∈ ws, 32 ∉ w) : splitOnSpace (joinW ws) = ws := by
  induction ws with
  | nil => exact absurd rfl hne
  | cons w ws ih =>
    cases ws with
    | nil =>
      show splitOnSpace (joinW [w]) = [w]
      exact splitOnSpace_no_space w (hw w (by simp))
    | cons w2 ws2 =>
      have hj : joinW (w :: w2 :: ws2) = w ++ 32 :: joinW (w2 :: ws2) := rfl
      rw [hj, splitOnSpace_append _ _ (hw w (by simp)),
        ih (by simp) (fun t ht => hw t (by simp [ht]))]

theorem joinW_append_singleton (ws : List (List Nat)) (w : List Nat) (hne : ws ≠ []) :
    joinW (ws ++ [w]) = joinW ws ++ 32 :: w := by
  induction ws with
  | nil => exact absurd rfl hne
  | cons x ws ih =>
    cases ws with
    | nil => rfl
    | cons y ws2 =>
      have h1 : joinW ((x :: y :: ws2) ++ [w]) = x ++ 32 :: joinW ((y :: ws2) ++ [w]) := rfl
      have h2 : joinW (x :: y :: ws2) = x ++ 32 :: joinW (y :: ws2) := rfl
      rw [h1, h2, ih (by simp)]
      simp

theorem entropy_foldl_joinW (f : Nat → List Nat) :
    ∀ n : Nat, 0 < n →
      (List.range n).foldl (fun ph i => (if i ≠ 0 then ph ++ [32] else ph) ++ f i) []
        = joinW ((List.range n).map f) := by
  intro n
  induction n with
  | zero => omega
  | succ n ih =>
    intro _
    by_cases hn : n = 0
    · subst hn
      rfl
    · rw [List.range_succ, List.foldl_append, List.map_append, List.foldl_cons,
        List.foldl_nil, ih (by omega)]
      simp only [List.map_cons, List.map_nil]
      rw [joinW_append_singleton _ _ (by simp; omega)]
      rw [if_pos hn]
      simp

/-- encWords lists the 15 words emitted by seed_to_seed_phrase, in order. -/
def encWords (D : List (List Nat)) (hash : List Nat → List Nat) (seed : List Nat) :
    List (List Nat) :=
  (List.range SEED_ENTROPY_WORDS).map (fun i => D.getD (wordIndexAt seed i) [])
    ++ [(seed_to_checksum_words D hash seed).getD 0 [],
        (seed_to_checksum_words D hash seed).getD 1 []]

theorem encWords_length (D : List (List Nat)) (hash : List Nat → List Nat)
    (seed : List Nat) : (encWords D hash seed).length = 15 := by
  unfold encWords
  simp [SEED_ENTROPY_WORDS]

/-- seed_to_seed_phrase produces exactly its 15 words joined by single spaces. -/
theorem seed_to_seed_phrase_joinW (D : List (List Nat)) (hash : List Nat → List Nat)
    (seed : List Nat) :
    seed_to_seed_phrase D hash seed = joinW (encWords D hash seed) := by
  unfold seed_to_seed_phrase encWords
  rw [entropy_foldl_joinW _ SEED_ENTROPY_WORDS (by unfold SEED_ENTROPY_WORDS; omega)]
  have h1 : (List.range SEED_ENTROPY_WORDS).map
        (fun i => D.getD (wordIndexAt seed i) []) ≠ [] := by
    simp [SEED_ENTROPY_WORDS]
  have h2 : ((List.range SEED_ENTROPY_WORDS).map (fun i => D.getD (wordIndexAt seed i) []))
        ++ [(seed_to_checksum_words D hash seed).getD 0 []] ≠ [] := by
    simp
  have hsplit : ((List.range SEED_ENTROPY_WORDS).map (fun i => D.getD (wordIndexAt seed i) []))
      ++ [(seed_to_checksum_words D hash seed).getD 0 [],
          (seed_to_checksum_words D hash seed).getD 1 []]
      = (((List.range SEED_ENTROPY_WORDS).map (fun i => D.getD (wordIndexAt seed i) []))
          ++ [(seed_to_checksum_words D hash seed).getD 0 []])
        ++ [(seed_to_checksum_words D hash seed).getD 1 []] := by
    simp
  rw [hsplit, joinW_append_singleton _ _ h2, joinW_append_singleton _ _ h1]
  simp

theorem encWords_getD_lt13 (D : List (List Nat)) (hash : List Nat → List Nat)
    (seed : List Nat) (m : Nat) (hm : m < 13) :
    (encWords D hash seed).getD m [] = D.getD (wordIndexAt seed m) [] := by
  unfold encWords
  rw [List.getD_eq_getElem?_getD,
    List.getElem?_append_left (by simp [SEED_ENTROPY_WORDS]; omega),
    List.getElem?_map, List.getElem?_range (by simpa [SEED_ENTROPY_WORDS] using hm)]
  rfl

theorem encWords_getD_13 (D : List (List Nat)) (hash : List Nat → List Nat)
    (seed : List Nat) :
    (encWords D hash seed).getD 13 [] = (seed_to_checksum_words D hash seed).getD 0 [] := by
  unfold encWords
  rw [List.getD_eq_getElem?_getD, List.getElem?_append_right (by simp [SEED_ENTROPY_WORDS])]
  simp [SEED_ENTROPY_WORDS]

theorem encWords_getD_14 (D : List (List Nat)) (hash : List Nat → List Nat)
    (seed : List Nat) :
    (encWords D hash seed).getD 14 [] = (seed_to_checksum_words D hash seed).getD 1 [] := by
  unfold encWords
  rw [List.getD_eq_getElem?_getD, List.getElem?_append_right (by simp [SEED_ENTROPY_WORDS])]
  simp [SEED_ENTROPY_WORDS]

/-! ### Truncation and resolution -/

theorem truncateWords_ok (P : Nat) (ws : List (List Nat))
    (h : ∀ w ∈ ws, P ≤ w.length ∧ isCharBoundary w P = true) :
    truncateWords P ws = .ok (ws.map (List.take P)) := by
  induction ws with
  | nil => rfl
  | cons w ws ih =>
    obtain ⟨h1, h2⟩ := h w (by simp)
    unfold truncateWords
    rw [if_neg (by omega), if_pos h2, ih (fun t ht => h t (by simp [ht]))]
    rfl

theorem findWordIdx_some (P : Nat) (tok : List Nat) :
    ∀ (L : List (List Nat)) (k : Nat), k < L.length →
      (L.getD k []).take P = tok →
      (∀ j, j < k → (L.getD j []).take P ≠ tok) →
      findWordIdx P tok L = some k := by
  intro L
  induction L with
  | nil =>
    intro k hk
    simp at hk
  | cons w L ih =>
    intro k hk hmatch hfirst
    cases k with
    | zero =>
      simp only [List.getD_cons_zero] at hmatch
      unfold findWordIdx
      rw [if_pos hmatch]
    | succ k =>
      have hw : w.take P ≠ tok := by
        have := hfirst 0 (by omega)
        simpa using this
      unfold findWordIdx
      rw [if_neg hw]
      have hk' : k < L.length := by simpa using hk
      have hm' : (L.getD k []).take P = tok := by simpa using hmatch
      have hf' : ∀ j, j < k → (L.getD j []).take P ≠ tok := by
        intro j hj
        have := hfirst (j + 1) (by omega)
        simpa using this
      rw [ih k hk' hm' hf']
      rfl

theorem findWordIdx_dict (D : List (List Nat)) (P : Nat) (hc : DictContract D P)
    (k : Nat) (hk : k < D.length) :
    findWordIdx P ((D.getD k []).take P) D = some k := by
  apply findWordIdx_some P _ D k hk rfl
  intro j hj he
  have : j = k := hc.uniq j k (by omega) hk he
  omega

theorem resolveAll_matching (D : List (List Nat)) (P : Nat) (hc : DictContract D P) :
    ∀ ks : List Nat, (∀ k ∈ ks, k < D.length) →
      resolveAll D P (ks.map (fun k => (D.getD k []).take P)) = .ok ks := by
  intro ks
  induction ks with
  | nil => intro _; rfl
  | cons k ks ih =>
    intro hks
    simp only [List.map_cons]
    unfold resolveAll
    rw [findWordIdx_dict D P hc k (hks k (by simp))]
    rw [ih (fun t ht => hks t (by simp [ht]))]
    rfl

theorem getD_map_take (P : Nat) (ts : List (List Nat)) (m : Nat) (hm : m < ts.length) :
    (ts.map (List.take P)).getD m [] = (ts.getD m []).take P := by
  rw [List.getD_eq_getElem?_getD, List.getElem?_map, List.getElem?_eq_getElem hm,
    List.getD_eq_getElem?_getD, List.getElem?_eq_getElem hm]
  rfl

/-! ### Master decoding lemma -/

/-- Any 15 space-free tokens, each at least P bytes long and sliceable at P,
whose P-byte truncations agree with those of the encoded words of a valid
seed, decode back to exactly that seed. -/
theorem decode_of_take_matching (D : List (List Nat)) (P : Nat)
    (hash : List Nat → List Nat) (hc : DictContract D P)
    (s : List Nat) (hs : ValidSeed s) (ts : List (List Nat))
    (hlen : ts.length = 15)
    (hnospace : ∀ t ∈ ts, 32 ∉ t)
    (hlong : ∀ t ∈ ts, P ≤ t.length ∧ isCharBoundary t P = true)
    (htake : ∀ m, m < 15 →
      (ts.getD m []).take P = ((encWords D hash s).getD m []).take P) :
    seed_phrase_to_seed D P hash (joinW ts) = .ok s := by
  have hne : ts ≠ [] := by
    intro h
    rw [h] at hlen
    simp at hlen
  have hsplit : splitOnSpace (joinW ts) = ts := splitOnSpace_joinW ts hne hnospace
  have htr : truncateWords P ts = .ok (ts.map (List.take P)) := truncateWords_ok P ts hlong
  have htsm : ∀ m, m < 15 → (ts.map (List.take P)).getD m [] = (ts.getD m []).take P := by
    intro m hm
    exact getD_map_take P ts m (by omega)
  have htoks13 : (ts.map (List.take P)).take SEED_ENTROPY_WORDS
      = (encIdxs s).map (fun k => (D.getD k []).take P) := by
    apply List.ext_getElem?
    intro m
    by_cases hm : m < 13
    · rw [List.getElem?_take_of_lt (by unfold SEED_ENTROPY_WORDS; omega)]
      have hmt : m < ts.length := by omega
      have hmi : m < (encIdxs s).length := by
        simp only [encIdxs, SEED_ENTROPY_WORDS, List.length_map, List.length_range]
        omega
      have hLa : (ts.map (List.take P))[m]? = some ((ts.getD m []).take P) := by
        rw [List.getElem?_map, List.getElem?_eq_getElem hmt, List.getD_eq_getElem?_getD,
          List.getElem?_eq_getElem hmt]
        rfl
      have hRa : ((encIdxs s).map fun k => (D.getD k []).take P)[m]?
          = some ((D.getD ((encIdxs s).getD m 0) []).take P) := by
        rw [List.getElem?_map, List.getElem?_eq_getElem hmi]
        have he : (encIdxs s).getD m 0 = (encIdxs s)[m] := by
          rw [List.getD_eq_getElem?_getD, List.getElem?_eq_getElem hmi]
          rfl
        rw [he]
        rfl
      rw [hLa, hRa, encIdxs_getD s m hm, htake m (by omega),
        encWords_getD_lt13 D hash s m hm]
    · have h1 : ((ts.map (List.take P)).take SEED_ENTROPY_WORDS)[m]? = none := by
        apply List.getElem?_eq_none
        have : (ts.map (List.take P)).length = 15 := by simp [hlen]
        rw [List.length_take, this]
        unfold SEED_ENTROPY_WORDS
        omega
      have h2 : ((encIdxs s).map fun k => (D.getD k []).take P)[m]? = none := by
        apply List.getElem?_eq_none
        simp only [List.length_map]
        unfold encIdxs SEED_ENTROPY_WORDS
        simp only [List.length_map, List.length_range]
        omega
      rw [h1, h2]
  have hkslt : ∀ k ∈ encIdxs s, k < D.length := by
    intro k hk
    unfold encIdxs at hk
    simp only [List.mem_map, List.mem_range] at hk
    obtain ⟨i, _, rfl⟩ := hk
    rw [hc.size]
    exact wordIndexAt_lt_1024 s i
  have hresolve : resolveAll D P ((ts.map (List.take P)).take SEED_ENTROPY_WORDS)
      = .ok (encIdxs s) := by
    rw [htoks13]
    exact resolveAll_matching D P hc (encIdxs s) hkslt
  have hbound : ¬ (255 < (encIdxs s).getD 12 0) := by
    rw [encIdxs_getD s 12 (by omega)]
    have := wordIndexAt_last_lt_256 s
    omega
  have hpack : packSeed (encIdxs s) = s := packSeed_encIdxs s hs.1 hs.2
  have hck0 : ¬ (((seed_to_checksum_words D hash s).getD 0 []).take P
      ≠ (ts.map (List.take P)).getD 13 []) := by
    rw [htsm 13 (by omega), htake 13 (by omega), encWords_getD_13]
    exact fun h => h rfl
  have hck1 : ¬ (((seed_to_checksum_words D hash s).getD 1 []).take P
      ≠ (ts.map (List.take P)).getD 14 []) := by
    rw [htsm 14 (by omega), htake 14 (by omega), encWords_getD_14]
    exact fun h => h rfl
  unfold seed_phrase_to_seed
  rw [hsplit]
  rw [if_neg (by rw [hlen]; unfold SEED_ENTROPY_WORDS SEED_CHECKSUM_WORDS; omega)]
  unfold decodeTrunc
  rw [htr]
  show decodeIdxs D P hash (ts.map (List.take P)) = .ok s
  unfold decodeIdxs
  rw [hresolve]
  show decodeBound D P hash (encIdxs s) (ts.map (List.take P)) = .ok s
  unfold decodeBound
  rw [if_neg hbound, hpack]
  unfold decodeChecksum
  rw [if_neg hck0, if_neg hck1]

/-! ### Checksum index bounds and encoded-word facts -/

theorem checksumWordIdxs_spec (hash : List Nat → List Nat) (seed : List Nat) :
    checksumWordIdxs hash seed
      = (((((hash seed).getD 0 0) <<< 8) + (hash seed).getD 1 0) >>> 6,
         ((((((hash seed).getD 1 0) <<< 10) &&& 0xffff)
            + (((hash seed).getD 2 0) <<< 2)) >>> 6)) := rfl

theorem checksumWordIdxs_lt (hash : List Nat → List Nat) (hh : HashBytes hash)
    (seed : List Nat) :
    (checksumWordIdxs hash seed).1 < 1024 ∧ (checksumWordIdxs hash seed).2 < 1024 := by
  rw [checksumWordIdxs_spec]
  have h0 := getD_lt_256_of_bytes (hash seed) (hh seed) 0
  have h1 := getD_lt_256_of_bytes (hash seed) (hh seed) 1
  have h2 := getD_lt_256_of_bytes (hash seed) (hh seed) 2
  have em : (0xffff : Nat) = 2 ^ 16 - 1 := rfl
  constructor
  · show ((((hash seed).getD 0 0) <<< 8) + (hash seed).getD 1 0) >>> 6 < 1024
    rw [Nat.shiftLeft_eq, Nat.shiftRight_eq_div_pow]
    have e8 : (2 : Nat) ^ 8 = 256 := rfl
    have e6 : (2 : Nat) ^ 6 = 64 := rfl
    rw [e8, e6]
    omega
  · show (((((hash seed).getD 1 0) <<< 10) &&& 0xffff)
            + (((hash seed).getD 2 0) <<< 2)) >>> 6 < 1024
    rw [Nat.shiftLeft_eq, Nat.shiftLeft_eq, Nat.shiftRight_eq_div_pow, em,
      Nat.and_pow_two_sub_one_eq_mod]
    have e10 : (2 : Nat) ^ 10 = 1024 := rfl
    have e16 : (2 : Nat) ^ 16 = 65536 := rfl
    have e2 : (2 : Nat) ^ 2 = 4 := rfl
    have e6 : (2 : Nat) ^ 6 = 64 := rfl
    rw [e10, e16, e2, e6]
    omega

theorem getD_mem (L : List (List Nat)) (k : Nat) (hk : k < L.length) :
    L.getD k [] ∈ L := by
  rw [List.getD_eq_getElem?_getD, List.getElem?_eq_getElem hk]
  exact List.getElem_mem hk

theorem encWords_mem_dict (D : List (List Nat)) (P : Nat) (hash : List Nat → List Nat)
    (s : List Nat) (hc : DictContract D P) (hh : HashBytes hash) :
    ∀ w ∈ encWords D hash s, w ∈ D := by
  intro w hw
  unfold encWords at hw
  rw [List.mem_append] at hw
  rcases hw with hw | hw
  · simp only [List.mem_map, List.mem_range] at hw
    obtain ⟨i, _, rfl⟩ := hw
    apply getD_mem
    rw [hc.size]
    exact wordIndexAt_lt_1024 s i
  · obtain ⟨hck1, hck2⟩ := checksumWordIdxs_lt hash hh s
    have hcw0 : (seed_to_checksum_words D hash s).getD 0 []
        = D.getD (checksumWordIdxs hash s).1 [] := rfl
    have hcw1 : (seed_to_checksum_words D hash s).getD 1 []
        = D.getD (checksumWordIdxs hash s).2 [] := rfl
    simp only [List.mem_cons, List.mem_singleton] at hw
    rcases hw with rfl | rfl | h
    · rw [hcw0]
      apply getD_mem
      rw [hc.size]
      exact hck1
    · rw [hcw1]
      apply getD_mem
      rw [hc.size]
      exact hck2
    · exact absurd h (by simp)

theorem isCharBoundary_of_ascii (w : List Nat) (P : Nat) (hP : P ≤ w.length)
    (hascii : ∀ b ∈ w, b < 128) : isCharBoundary w P = true := by
  unfold isCharBoundary
  by_cases h0 : P = 0
  · rw [if_pos h0]
  · rw [if_neg h0]
    by_cases hlt : P < w.length
    · rw [if_pos hlt]
      have hmem : w.getD P 0 ∈ w := by
        rw [List.getD_eq_getElem?_getD, List.getElem?_eq_getElem hlt]
        exact List.getElem_mem hlt
      have := hascii _ hmem
      have hb : w.getD P 0 < 0x80 := by omega
      simp only [Bool.or_eq_true, decide_eq_true_eq]
      left
      exact hb
    · rw [if_neg hlt]
      have he : P = w.length := by omega
      simp [he]

/-! ### Demo dictionary facts (for witnesses) -/

theorem demoDict_getD (i : Nat) (h : i < 1024) : demoDict.getD i [] = demoWord i :=
  getD_map_range demoWord [] 1024 i h

theorem demoDict_contract : DictContract demoDict 3 := by
  refine ⟨?_, ?_, ?_, ?_⟩
  · simp [demoDict]
  · intro w hw
    simp only [demoDict, List.mem_map] at hw
    obtain ⟨i, _, rfl⟩ := hw
    simp [demoWord]
  · intro w hw b hb
    simp only [demoDict, List.mem_map, List.mem_range] at hw
    obtain ⟨i, hi, rfl⟩ := hw
    simp only [demoWord, List.mem_cons, List.not_mem_nil, or_false] at hb
    have d1 : i / 256 < 4 := by omega
    have d2 : i / 16 % 16 < 16 := by omega
    have d3 : i % 16 < 16 := by omega
    rcases hb with rfl | rfl | rfl <;> exact ⟨by omega, by omega⟩
  · intro i j hi hj he
    have hi' : i < 1024 := by simpa [demoDict] using hi
    have hj' : j < 1024 := by simpa [demoDict] using hj
    rw [demoDict_getD i hi', demoDict_getD j hj'] at he
    simp only [demoWord, List.take_succ_cons, List.take_nil, List.cons.injEq,
      and_true] at he
    omega

theorem demoHash_bytes : HashBytes demoHash := by
  intro s b hb
  have := List.eq_of_mem_replicate hb
  omega

/-- demoSeed is the all-zero 16 byte seed used in witnesses. -/
def demoSeed : List Nat := List.replicate 16 0

theorem demoSeed_valid : ValidSeed demoSeed := by
  constructor
  · rfl
  · intro b hb
    have := List.eq_of_mem_replicate hb
    omega

/-! ### Claim C1 -/

/-- C1: Round-trip: for every 16-byte seed s (with the spec-modelled dictionary
contract and byte-valued digest), seed_phrase_to_seed applied to
seed_to_seed_phrase of s succeeds and returns exactly s. -/
theorem C1_roundtrip (D : List (List Nat)) (P : Nat) (hash : List Nat → List Nat)
    (hc : DictContract D P) (hh : HashBytes hash) (s : List Nat) (hs : ValidSeed s) :
    seed_phrase_to_seed D P hash (seed_to_seed_phrase D hash s) = .ok s := by
  rw [seed_to_seed_phrase_joinW]
  apply decode_of_take_matching D P hash hc s hs _ (encWords_length D hash s)
  · intro t ht h32
    exact (hc.ascii t (encWords_mem_dict D P hash s hc hh t ht) 32 h32).2 rfl
  · intro t ht
    have htD := encWords_mem_dict D P hash s hc hh t ht
    exact ⟨hc.minLen t htD,
      isCharBoundary_of_ascii t P (hc.minLen t htD) (fun b hb => (hc.ascii t htD b hb).1)⟩
  · intro m _
    rfl

/-- Witness for C1: the concrete demo dictionary, demo digest and the all-zero
seed satisfy every hypothesis, and the round trip returns the seed. -/
theorem C1_roundtrip_witness :
    DictContract demoDict 3 ∧ HashBytes demoHash ∧ ValidSeed demoSeed ∧
      seed_phrase_to_seed demoDict 3 demoHash
          (seed_to_seed_phrase demoDict demoHash demoSeed)
        = .ok demoSeed :=
  ⟨demoDict_contract, demoHash_bytes, demoSeed_valid,
    C1_roundtrip demoDict 3 demoHash demoDict_contract demoHash_bytes demoSeed demoSeed_valid⟩

/-! ### Big-endian value of the seed: bridge to the spec chunk formulas -/

theorem testBit_mul_pow_add (a r k q : Nat) (hr : r < 2 ^ k) :
    (a * 2 ^ k + r).testBit q = if q < k then r.testBit q else a.testBit (q - k) := by
  rw [Nat.mul_comm, Nat.mul_add_lt_is_or hr, Nat.testBit_or]
  have hshift : 2 ^ k * a = a <<< k := by rw [Nat.shiftLeft_eq, Nat.mul_comm]
  rw [hshift, Nat.testBit_shiftLeft]
  by_cases hq : q < k
  · have hd : decide (q ≥ k) = false := by simp only [decide_eq_false_iff_not]; omega
    rw [if_pos hq, hd, Bool.false_and, Bool.false_or]
  · have hd : decide (q ≥ k) = true := by simp only [decide_eq_true_eq]; omega
    rw [if_neg hq, hd, Bool.true_and]
    have hrf : r.testBit q = false := by
      apply Nat.testBit_lt_two_pow
      have hpow : (2 : Nat) ^ k ≤ 2 ^ q := Nat.pow_le_pow_right (by omega) (by omega)
      omega
    rw [hrf, Bool.or_false]

theorem beNat_lt (s : List Nat) (h : ∀ b ∈ s, b < 256) :
    beNat s < 2 ^ (8 * s.length) := by
  induction s with
  | nil => simp [beNat]
  | cons b rest ih =>
    have hb : b < 256 := h b (by simp)
    have hrest : beNat rest < 2 ^ (8 * rest.length) := ih (fun x hx => h x (by simp [hx]))
    show b * 2 ^ (8 * rest.length) + beNat rest < 2 ^ (8 * (b :: rest).length)
    have h1 : b * 2 ^ (8 * rest.length) + beNat rest < (b + 1) * 2 ^ (8 * rest.length) := by
      have he : (b + 1) * 2 ^ (8 * rest.length)
          = b * 2 ^ (8 * rest.length) + 2 ^ (8 * rest.length) := by ring
      omega
    have h2 : (b + 1) * 2 ^ (8 * rest.length) ≤ 256 * 2 ^ (8 * rest.length) :=
      Nat.mul_le_mul_right _ (by omega)
    have h3 : 256 * 2 ^ (8 * rest.length) = 2 ^ (8 * (b :: rest).length) := by
      have e1 : 8 * (b :: rest).length = 8 * rest.length + 8 := by
        simp only [List.length_cons]
        omega
      rw [e1, Nat.pow_add]
      have e2 : (2 : Nat) ^ 8 = 256 := rfl
      rw [e2, Nat.mul_comm]
    omega

theorem beNat_testBit (s : List Nat) (hbytes : ∀ b ∈ s, b < 256) :
    ∀ q, (beNat s).testBit q
      = if q < 8 * s.length then (s.getD (s.length - 1 - q / 8) 0).testBit (q % 8)
        else false := by
  induction s with
  | nil =>
    intro q
    simp [beNat, Nat.zero_testBit]
  | cons b rest ih =>
    intro q
    have hb : b < 256 := hbytes b (by simp)
    have hrest : ∀ x ∈ rest, x < 256 := fun x hx => hbytes x (by simp [hx])
    have hlt : beNat rest < 2 ^ (8 * rest.length) := beNat_lt rest hrest
    show (b * 2 ^ (8 * rest.length) + beNat rest).testBit q = _
    rw [testBit_mul_pow_add _ _ _ _ hlt]
    by_cases hq : q < 8 * rest.length
    · rw [if_pos hq, ih hrest q, if_pos hq,
        if_pos (by simp only [List.length_cons]; omega)]
      have h1 : (b :: rest).length - 1 - q / 8 = (rest.length - 1 - q / 8) + 1 := by
        simp only [List.length_cons]
        omega
      rw [h1, List.getD_cons_succ]
    · rw [if_neg hq]
      by_cases hq2 : q < 8 * (b :: rest).length
      · rw [if_pos hq2]
        have hd : (b :: rest).length - 1 - q / 8 = 0 := by
          simp only [List.length_cons] at hq2 ⊢
          omega
        rw [hd, List.getD_cons_zero]
        have he : q - 8 * rest.length = q % 8 := by
          simp only [List.length_cons] at hq2
          omega
        rw [he]
      · rw [if_neg hq2]
        apply Nat.testBit_lt_two_pow
        have hpow : (2 : Nat) ^ 8 ≤ 2 ^ (q - 8 * rest.length) := by
          apply Nat.pow_le_pow_right (by omega)
          simp only [List.length_cons] at hq2
          omega
        omega

theorem specChunk_eq_wordIndexAt (s : List Nat) (hlen : s.length = 16)
    (hbytes : ∀ b ∈ s, b < 256) (i : Nat) (hi : i < 12) :
    specChunk s i = wordIndexAt s i := by
  apply Nat.eq_of_testBit_eq
  intro b
  rw [wordIndexAt_testBit]
  unfold specChunk
  have h1024 : (1024 : Nat) = 2 ^ 10 := rfl
  rw [h1024, ← Nat.shiftRight_eq_div_pow, Nat.testBit_mod_two_pow, Nat.testBit_shiftRight]
  have hw : wBits i = 10 := by
    unfold wBits
    simp only [if_neg (by omega : ¬ i = 12)]
  rw [hw]
  by_cases hb : b < 10
  · have hbt : decide (b < 10) = true := by simp [hb]
    rw [hbt, Bool.true_and, Bool.true_and, beNat_testBit s hbytes]
    rw [if_pos (by rw [hlen]; omega)]
    unfold byteBit
    have e1 : s.length - 1 - (118 - 10 * i + b) / 8 = (10 * i + (10 - 1 - b)) / 8 := by
      rw [hlen]
      omega
    have e2 : (118 - 10 * i + b) % 8 = 7 - (10 * i + (10 - 1 - b)) % 8 := by
      omega
    rw [e1, e2]
  · have hbt : decide (b < 10) = false := by simp [hb]
    rw [hbt, Bool.false_and, Bool.false_and]

theorem specLastChunk_eq_wordIndexAt (s : List Nat) (hlen : s.length = 16)
    (hbytes : ∀ b ∈ s, b < 256) : specLastChunk s = wordIndexAt s 12 := by
  apply Nat.eq_of_testBit_eq
  intro b
  rw [wordIndexAt_testBit]
  unfold specLastChunk
  have h256 : (256 : Nat) = 2 ^ 8 := rfl
  rw [h256, Nat.testBit_mod_two_pow]
  have hw : wBits 12 = 8 := rfl
  rw [hw]
  by_cases hb : b < 8
  · have hbt : decide (b < 8) = true := by simp [hb]
    rw [hbt, Bool.true_and, Bool.true_and, beNat_testBit s hbytes]
    rw [if_pos (by rw [hlen]; omega)]
    unfold byteBit
    have e1 : s.length - 1 - b / 8 = (10 * 12 + (8 - 1 - b)) / 8 := by
      rw [hlen]
      omega
    have e2 : b % 8 = 7 - (10 * 12 + (8 - 1 - b)) % 8 := by
      omega
    rw [e1, e2]
  · have hbt : decide (b < 8) = false := by simp [hb]
    rw [hbt, Bool.false_and, Bool.false_and]

/-! ### Claims C2 and C10 -/

/-- specWordList is the 15-word list described by the spec: the words at the
twelve 10-bit chunk indices, the word at the remaining-8-bit index, then the
two checksum words. -/
def specWordList (D : List (List Nat)) (hash : List Nat → List Nat)
    (s : List Nat) : List (List Nat) :=
  (List.range 12).map (fun i => D.getD (specChunk s i) [])
    ++ [D.getD (specLastChunk s) []]
    ++ seed_to_checksum_words D hash s

theorem specWordList_eq_encWords (D : List (List Nat)) (hash : List Nat → List Nat)
    (s : List Nat) (hlen : s.length = 16) (hbytes : ∀ b ∈ s, b < 256) :
    specWordList D hash s = encWords D hash s := by
  unfold specWordList encWords
  have h13 : List.range SEED_ENTROPY_WORDS = List.range 12 ++ [12] := by
    show List.range (12 + 1) = _
    rw [List.range_succ]
  have hcw : seed_to_checksum_words D hash s
      = [(seed_to_checksum_words D hash s).getD 0 [],
         (seed_to_checksum_words D hash s).getD 1 []] := rfl
  have hmap : (List.range 12).map (fun i => D.getD (specChunk s i) [])
      = (List.range 12).map (fun i => D.getD (wordIndexAt s i) []) :=
    List.map_congr_left (fun i hi => by
      rw [specChunk_eq_wordIndexAt s hlen hbytes i (List.mem_range.1 hi)])
  rw [hmap, specLastChunk_eq_wordIndexAt s hlen hbytes, h13, List.map_append]
  simp only [List.map_cons, List.map_nil, List.append_assoc]
  rw [← hcw]

/-- C2: seed_to_seed_phrase emits exactly 15 full dictionary words separated by
single spaces: words 1-12 are the dictionary entries at the twelve consecutive
10-bit chunks of the big-endian seed bitstream, word 13 is the entry at the
remaining 8 bits, and the final two are the checksum words; every emitted word
is a full dictionary entry. -/
theorem C2_encoding (D : List (List Nat)) (P : Nat) (hash : List Nat → List Nat)
    (hc : DictContract D P) (hh : HashBytes hash) (s : List Nat) (hs : ValidSeed s) :
    seed_to_seed_phrase D hash s = joinW (specWordList D hash s)
      ∧ (specWordList D hash s).length = 15
      ∧ ∀ w ∈ specWordList D hash s, w ∈ D := by
  rw [specWordList_eq_encWords D hash s hs.1 hs.2]
  exact ⟨seed_to_seed_phrase_joinW D hash s, encWords_length D hash s,
    encWords_mem_dict D P hash s hc hh⟩

/-- Witness for C2 at the all-zero seed with the demo dictionary and digest. -/
theorem C2_encoding_witness :
    DictContract demoDict 3 ∧ HashBytes demoHash ∧ ValidSeed demoSeed ∧
      (seed_to_seed_phrase demoDict demoHash demoSeed
          = joinW (specWordList demoDict demoHash demoSeed)
        ∧ (specWordList demoDict demoHash demoSeed).length = 15
        ∧ ∀ w ∈ specWordList demoDict demoHash demoSeed, w ∈ demoDict) :=
  ⟨demoDict_contract, demoHash_bytes, demoSeed_valid,
    C2_encoding demoDict 3 demoHash demoDict_contract demoHash_bytes demoSeed demoSeed_valid⟩

/-- C10: for every seed, the two checksum word indices are below 1024, hence
both dictionary lookups of seed_to_checksum_words are in bounds, and so are
all 13 entropy word lookups of seed_to_seed_phrase. -/
theorem C10_checksum_bounds (D : List (List Nat)) (P : Nat)
    (hash : List Nat → List Nat) (hc : DictContract D P) (hh : HashBytes hash)
    (seed : List Nat) :
    (checksumWordIdxs hash seed).1 < 1024 ∧ (checksumWordIdxs hash seed).2 < 1024
      ∧ (checksumWordIdxs hash seed).1 < D.length
      ∧ (checksumWordIdxs hash seed).2 < D.length
      ∧ ∀ i, wordIndexAt seed i < D.length := by
  obtain ⟨h1, h2⟩ := checksumWordIdxs_lt hash hh seed
  refine ⟨h1, h2, ?_, ?_, ?_⟩
  · rw [hc.size]; exact h1
  · rw [hc.size]; exact h2
  · intro i
    rw [hc.size]
    exact wordIndexAt_lt_1024 seed i

/-- Witness for C10 with the demo dictionary and digest at the zero seed. -/
theorem C10_checksum_bounds_witness :
    DictContract demoDict 3 ∧ HashBytes demoHash ∧
      ((checksumWordIdxs demoHash demoSeed).1 < 1024
        ∧ (checksumWordIdxs demoHash demoSeed).2 < 1024
        ∧ (checksumWordIdxs demoHash demoSeed).1 < demoDict.length
        ∧ (checksumWordIdxs demoHash demoSeed).2 < demoDict.length
        ∧ ∀ i, wordIndexAt demoSeed i < demoDict.length) :=
  ⟨demoDict_contract, demoHash_bytes,
    C10_checksum_bounds demoDict 3 demoHash demoDict_contract demoHash_bytes demoSeed⟩

/-! ### Claim C3 -/

theorem ck_formula_w1 (d0 d1 : Nat) (h1 : d1 < 256) :
    ((d0 <<< 8) + d1) >>> 6 = specCkW1 d0 d1 := by
  unfold specCkW1
  congr 1
  have e8 : d0 <<< 8 = 2 ^ 8 * d0 := by rw [Nat.shiftLeft_eq]; ring
  rw [e8, Nat.mul_add_lt_is_or (by omega) d0]

theorem ck_formula_w2 (d1 d2 : Nat) (h2 : d2 < 256) :
    (((d1 <<< 10) &&& 0xffff) + (d2 <<< 2)) >>> 6 = specCkW2 d1 d2 := by
  unfold specCkW2
  congr 1
  have e10 : d1 <<< 10 = 2 ^ 10 * d1 := by rw [Nat.shiftLeft_eq]; ring
  have e2 : d2 <<< 2 = d2 * 4 := by
    rw [Nat.shiftLeft_eq]
  have hor : 2 ^ 10 * d1 ||| d2 * 4 = 2 ^ 10 * d1 + d2 * 4 :=
    (Nat.mul_add_lt_is_or (by omega) d1).symm
  rw [e10, e2, hor]
  have em : (0xffff : Nat) = 2 ^ 16 - 1 := rfl
  rw [em, Nat.and_pow_two_sub_one_eq_mod, Nat.and_pow_two_sub_one_eq_mod]
  have h16 : (2 : Nat) ^ 16 = 65536 := rfl
  have h10 : (2 : Nat) ^ 10 = 1024 := rfl
  rw [h16, h10]
  omega

/-- C3: with digest = hash(seed) (SHA-256 in the source), the two checksum
word indices computed by seed_to_checksum_words equal the spec formulas
word1 = (digest0 << 8 | digest1) >> 6 and
word2 = ((digest1 << 10 | digest2 << 2) & 0xFFFF) >> 6, and the two checksum
words are the dictionary entries at those indices. -/
theorem C3_checksum_formula (D : List (List Nat)) (hash : List Nat → List Nat)
    (hh : HashBytes hash) (seed : List Nat) :
    checksumWordIdxs hash seed
        = (specCkW1 ((hash seed).getD 0 0) ((hash seed).getD 1 0),
           specCkW2 ((hash seed).getD 1 0) ((hash seed).getD 2 0))
      ∧ seed_to_checksum_words D hash seed
        = [D.getD (specCkW1 ((hash seed).getD 0 0) ((hash seed).getD 1 0)) [],
           D.getD (specCkW2 ((hash seed).getD 1 0) ((hash seed).getD 2 0)) []] := by
  have h1 := getD_lt_256_of_bytes (hash seed) (hh seed) 1
  have h2 := getD_lt_256_of_bytes (hash seed) (hh seed) 2
  have hmain : checksumWordIdxs hash seed
      = (specCkW1 ((hash seed).getD 0 0) ((hash seed).getD 1 0),
         specCkW2 ((hash seed).getD 1 0) ((hash seed).getD 2 0)) := by
    rw [checksumWordIdxs_spec]
    refine Prod.ext ?_ ?_
    · exact ck_formula_w1 _ _ h1
    · exact ck_formula_w2 _ _ h2
  refine ⟨hmain, ?_⟩
  show [D.getD (checksumWordIdxs hash seed).1 [], D.getD (checksumWordIdxs hash seed).2 []] = _
  rw [hmain]

/-- Witness for C3 with the demo digest at the zero seed. -/
theorem C3_checksum_formula_witness :
    HashBytes demoHash ∧
      (checksumWordIdxs demoHash demoSeed
          = (specCkW1 ((demoHash demoSeed).getD 0 0) ((demoHash demoSeed).getD 1 0),
             specCkW2 ((demoHash demoSeed).getD 1 0) ((demoHash demoSeed).getD 2 0))
        ∧ seed_to_checksum_words demoDict demoHash demoSeed
          = [demoDict.getD (specCkW1 ((demoHash demoSeed).getD 0 0)
                ((demoHash demoSeed).getD 1 0)) [],
             demoDict.getD (specCkW2 ((demoHash demoSeed).getD 1 0)
                ((demoHash demoSeed).getD 2 0)) []]) :=
  ⟨demoHash_bytes, C3_checksum_formula demoDict demoHash demoHash_bytes demoSeed⟩

/-! ### Claim C5 -/

/-- C5: the SeedCsprng constructed by keypair_from_seed yields, on its first
fill_bytes call with a 32-byte destination, exactly the digest of the seed and
flips its used flag; fill_bytes with any other destination length panics, any
call after the first panics, and next_u32, next_u64 and try_fill_bytes always
panic instead of returning bytes or a recoverable error. -/
theorem C5_csprng_contract (hash : List Nat → List Nat) (seed : List Nat) :
    fill_bytes hash (initialCsprng seed) 32
        = .ok (hash seed) { seed := seed, used := true }
      ∧ (∀ g n, n ≠ 32 → fill_bytes hash g n = .panicked)
      ∧ (∀ g : SeedCsprng, g.used = true → ∀ n, fill_bytes hash g n = .panicked)
      ∧ (∀ out g2, fill_bytes hash (initialCsprng seed) 32 = RngOutcome.ok out g2 →
          ∀ n, fill_bytes hash g2 n = .panicked)
      ∧ (∀ g, next_u32 g = .panicked)
      ∧ (∀ g, next_u64 g = .panicked)
      ∧ (∀ g n, try_fill_bytes g n = .panicked) := by
  have hfirst : fill_bytes hash (initialCsprng seed) 32
      = .ok (hash seed) { seed := seed, used := true } := rfl
  have hlen : ∀ g n, n ≠ 32 → fill_bytes hash g n = .panicked := by
    intro g n hn
    unfold fill_bytes
    rw [if_pos hn]
  have hused : ∀ g : SeedCsprng, g.used = true → ∀ n, fill_bytes hash g n = .panicked := by
    intro g hg n
    unfold fill_bytes
    by_cases hn : n ≠ 32
    · rw [if_pos hn]
    · rw [if_neg hn, if_pos hg]
  refine ⟨hfirst, hlen, hused, ?_, fun g => rfl, fun g => rfl, fun g n => rfl⟩
  intro out g2 hok n
  rw [hfirst] at hok
  injection hok with h1 h2
  rw [← h2]
  exact hused _ rfl n

/-- Witness for C5 at concrete inputs: the zero seed, a 31-byte destination
for the length panic, and the already-used generator for the reuse panic. -/
theorem C5_csprng_contract_witness :
    fill_bytes demoHash (initialCsprng demoSeed) 32
        = .ok (demoHash demoSeed) { seed := demoSeed, used := true }
      ∧ fill_bytes demoHash (initialCsprng demoSeed) 31 = .panicked
      ∧ fill_bytes demoHash { seed := demoSeed, used := true } 32 = .panicked
      ∧ next_u32 (initialCsprng demoSeed) = .panicked
      ∧ next_u64 (initialCsprng demoSeed) = .panicked
      ∧ try_fill_bytes (initialCsprng demoSeed) 32 = .panicked := by
  obtain ⟨h1, h2, h3, _, h5, h6, h7⟩ := C5_csprng_contract demoHash demoSeed
  exact ⟨h1, h2 _ 31 (by omega), h3 _ rfl 32, h5 _, h6 _, h7 _ _⟩

/-! ### Claims C7 and C4 -/

theorem resolveAll_error_unknown (D : List (List Nat)) (P : Nat) :
    ∀ ts e, resolveAll D P ts = .error e → ∃ tok, e = .unknownWord tok := by
  intro ts
  induction ts with
  | nil =>
    intro e he
    simp [resolveAll] at he
  | cons t ts ih =>
    intro e he
    unfold resolveAll at he
    cases hf : findWordIdx P t D with
    | none =>
      rw [hf] at he
      injection he with h
      exact ⟨t, h.symm⟩
    | some idx =>
      rw [hf] at he
      cases hr : resolveAll D P ts with
      | error e2 =>
        rw [hr] at he
        injection he with h
        exact h ▸ ih e2 hr
      | ok r =>
        rw [hr] at he
        simp [Except.map] at he

/-- decodeChecksum with its let binding inlined. -/
theorem decodeChecksum_eq (D : List (List Nat)) (P : Nat)
    (hash : List Nat → List Nat) (seed : List Nat) (toks : List (List Nat)) :
    decodeChecksum D P hash seed toks =
      if ((seed_to_checksum_words D hash seed).getD 0 []).take P ≠ toks.getD 13 [] then
        .err (.checksumOne (((seed_to_checksum_words D hash seed).getD 0 []).take P)
          (toks.getD 13 []))
      else if ((seed_to_checksum_words D hash seed).getD 1 []).take P ≠ toks.getD 14 [] then
        .err (.checksumTwo (((seed_to_checksum_words D hash seed).getD 1 []).take P)
          (toks.getD 14 []))
      else .ok seed := rfl

theorem decodeChecksum_ne_wordCount (D : List (List Nat)) (P : Nat)
    (hash : List Nat → List Nat) (seed : List Nat) (toks : List (List Nat)) (m : Nat) :
    decodeChecksum D P hash seed toks ≠ .err (.wordCount m) := by
  rw [decodeChecksum_eq]
  split
  · simp
  · split
    · simp
    · simp

theorem decodeBound_ne_wordCount (D : List (List Nat)) (P : Nat)
    (hash : List Nat → List Nat) (idxs : List Nat) (toks : List (List Nat)) (m : Nat) :
    decodeBound D P hash idxs toks ≠ .err (.wordCount m) := by
  unfold decodeBound
  split
  · simp
  · exact decodeChecksum_ne_wordCount D P hash _ toks m

theorem decodeIdxs_ne_wordCount (D : List (List Nat)) (P : Nat)
    (hash : List Nat → List Nat) (toks : List (List Nat)) (m : Nat) :
    decodeIdxs D P hash toks ≠ .err (.wordCount m) := by
  unfold decodeIdxs
  cases hr : resolveAll D P (toks.take SEED_ENTROPY_WORDS) with
  | error e =>
    obtain ⟨tok, rfl⟩ := resolveAll_error_unknown D P _ e hr
    simp
  | ok idxs => exact decodeBound_ne_wordCount D P hash idxs toks m

theorem decodeTrunc_ne_wordCount (D : List (List Nat)) (P : Nat)
    (hash : List Nat → List Nat) (ws : List (List Nat)) (m : Nat) :
    decodeTrunc D P hash ws ≠ .err (.wordCount m) := by
  unfold decodeTrunc
  cases htr : truncateWords P ws with
  | panicked => simp
  | tooShort => simp
  | ok toks => exact decodeIdxs_ne_wordCount D P hash toks m

/-- C7: seed_phrase_to_seed fails with a word-count error exactly when
splitting the input on single spaces yields a token count other than 15, the
reported count is that token count, and the outcome is decided by the split
alone, before any per-token validation or dictionary lookup. -/
theorem C7_word_count (D : List (List Nat)) (P : Nat) (hash : List Nat → List Nat)
    (phrase : List Nat) :
    (seed_phrase_to_seed D P hash phrase
        = .err (.wordCount (splitOnSpace phrase).length)
      ↔ (splitOnSpace phrase).length ≠ 15)
    ∧ ((∃ n, seed_phrase_to_seed D P hash phrase = .err (.wordCount n))
      ↔ (splitOnSpace phrase).length ≠ 15) := by
  unfold seed_phrase_to_seed
  by_cases hn : (splitOnSpace phrase).length ≠ SEED_ENTROPY_WORDS + SEED_CHECKSUM_WORDS
  · rw [if_pos hn]
    have h15 : (splitOnSpace phrase).length ≠ 15 := hn
    exact ⟨⟨fun _ => h15, fun _ => rfl⟩, ⟨fun _ => h15, fun _ => ⟨_, rfl⟩⟩⟩
  · rw [if_neg hn]
    have h15 : ¬ (splitOnSpace phrase).length ≠ 15 := hn
    constructor
    · exact ⟨fun h => absurd h (decodeTrunc_ne_wordCount D P hash _ _),
        fun h => absurd h h15⟩
    · constructor
      · rintro ⟨n, h⟩
        exact absurd h (decodeTrunc_ne_wordCount D P hash _ n)
      · intro h
        exact absurd h h15

/-- Witness for C7 at the one-token input consisting of the single byte 97. -/
theorem C7_word_count_witness :
    (seed_phrase_to_seed demoDict 3 demoHash [97]
        = .err (.wordCount (splitOnSpace [97]).length)
      ↔ (splitOnSpace [97]).length ≠ 15)
    ∧ ((∃ n, seed_phrase_to_seed demoDict 3 demoHash [97] = .err (.wordCount n))
      ↔ (splitOnSpace [97]).length ≠ 15) :=
  C7_word_count demoDict 3 demoHash [97]

/-- C4: whenever the 15-token phrase passes truncation, its first 13 tokens
all resolve, and the 13th resolves to an index above 255, decoding fails with
the out-of-range error naming that word's truncation, regardless of whether
the checksum would have matched. -/
theorem C4_bound_gate (D : List (List Nat)) (P : Nat) (hash : List Nat → List Nat)
    (phrase : List Nat) (toks : List (List Nat)) (idxs : List Nat)
    (h15 : (splitOnSpace phrase).length = 15)
    (htr : truncateWords P (splitOnSpace phrase) = .ok toks)
    (hres : resolveAll D P (toks.take SEED_ENTROPY_WORDS) = .ok idxs)
    (hgt : 255 < idxs.getD 12 0) :
    seed_phrase_to_seed D P hash phrase
      = .err (.outOfRangeWord ((D.getD (idxs.getD 12 0) []).take P)) := by
  unfold seed_phrase_to_seed
  rw [if_neg (by rw [h15]; unfold SEED_ENTROPY_WORDS SEED_CHECKSUM_WORDS; omega)]
  unfold decodeTrunc
  rw [htr]
  show decodeIdxs D P hash toks = _
  unfold decodeIdxs
  rw [hres]
  show decodeBound D P hash idxs toks = _
  unfold decodeBound
  rw [if_pos hgt]

/-- c4Toks: twelve copies of the demo word at index 0, then the demo word at
index 256 as 13th token, then two more index-0 words as checksum slots. -/
def c4Toks : List (List Nat) :=
  List.replicate 12 [97, 97, 97] ++ [[98, 97, 97], [97, 97, 97], [97, 97, 97]]

/-- c4Phrase joins the c4Toks with single spaces. -/
def c4Phrase : List Nat := joinW c4Toks

/-- c4Idxs: the indices that the first 13 tokens of c4Phrase resolve to. -/
def c4Idxs : List Nat := List.replicate 12 0 ++ [256]

/-- Witness for C4: a concrete 15-token phrase whose 13th token resolves to
index 256 fails with the out-of-range error. -/
theorem C4_bound_gate_witness :
    (splitOnSpace c4Phrase).length = 15
    ∧ truncateWords 3 (splitOnSpace c4Phrase) = .ok c4Toks
    ∧ resolveAll demoDict 3 (c4Toks.take SEED_ENTROPY_WORDS) = .ok c4Idxs
    ∧ 255 < c4Idxs.getD 12 0
    ∧ seed_phrase_to_seed demoDict 3 demoHash c4Phrase
        = .err (.outOfRangeWord ((demoDict.getD (c4Idxs.getD 12 0) []).take 3)) :=
  ⟨by decide, by decide, rfl, by decide,
    C4_bound_gate demoDict 3 demoHash c4Phrase c4Toks c4Idxs
      (by decide) (by decide) rfl (by decide)⟩

/-! ### UTF-8 facts for claim C8 -/

theorem utf8Step_ascii (b : Nat) (hb : b ≤ 0x7F) : utf8Step b = some [] := by
  unfold utf8Step
  rw [if_pos hb]

theorem utf8Valid_cons_ascii (b : Nat) (rest : List Nat) (hb : b ≤ 0x7F) :
    utf8Valid (b :: rest) = utf8Valid rest := by
  show utf8Run [] (b :: rest) = utf8Run [] rest
  unfold utf8Run
  rw [utf8Step_ascii b hb]
  cases rest with
  | nil => rfl
  | cons c cs => rfl

theorem utf8Step_lead (x : Nat) (e : List (Nat × Nat)) (h : utf8Step x = some e) :
    x ≤ 0x7F ∨ 0xC2 ≤ x := by
  by_cases c1 : x ≤ 0x7F
  · left
    exact c1
  · right
    unfold utf8Step at h
    rw [if_neg c1] at h
    by_cases c2 : 0xC2 ≤ x ∧ x ≤ 0xDF
    · omega
    rw [if_neg c2] at h
    by_cases c3 : x = 0xE0
    · omega
    rw [if_neg c3] at h
    by_cases c4 : (0xE1 ≤ x ∧ x ≤ 0xEC) ∨ x = 0xEE ∨ x = 0xEF
    · omega
    rw [if_neg c4] at h
    by_cases c5 : x = 0xED
    · omega
    rw [if_neg c5] at h
    by_cases c6 : x = 0xF0
    · omega
    rw [if_neg c6] at h
    by_cases c7 : 0xF1 ≤ x ∧ x ≤ 0xF3
    · omega
    rw [if_neg c7] at h
    by_cases c8 : x = 0xF4
    · omega
    rw [if_neg c8] at h
    exact Option.noConfusion h

theorem utf8_head (x : Nat) (xs : List Nat) (h : utf8Valid (x :: xs) = true) :
    x < 0x80 ∨ 0xC0 ≤ x := by
  have hrun : utf8Run [] (x :: xs) = true := h
  unfold utf8Run at hrun
  cases hstep : utf8Step x with
  | none =>
    rw [hstep] at hrun
    exact Bool.noConfusion hrun
  | some e =>
    rcases utf8Step_lead x e hstep with h1 | h1
    · left
      omega
    · right
      omega

theorem mem_of_mem_take {α : Type} (a : α) : ∀ (n : Nat) (l : List α),
    a ∈ l.take n → a ∈ l := by
  intro n
  induction n with
  | zero =>
    intro l h
    simp at h
  | succ n ih =>
    intro l h
    cases l with
    | nil => simp at h
    | cons x xs =>
      rw [List.take_succ_cons] at h
      rcases List.mem_cons.1 h with rfl | h2
      · exact List.mem_cons_self ..
      · exact List.mem_cons_of_mem _ (ih xs h2)

theorem boundary_of_valid : ∀ (t : List Nat), utf8Valid t = true → ∀ P, P ≤ t.length →
    (∀ b ∈ t.take P, b < 128) → isCharBoundary t P = true := by
  intro t
  induction t with
  | nil =>
    intro _ P hP _
    have hP0 : P = 0 := by simpa using hP
    subst hP0
    rfl
  | cons x xs ih =>
    intro hv P hP hascii
    cases P with
    | zero => rfl
    | succ P =>
      have hx : x < 128 := hascii x (by rw [List.take_succ_cons]; exact List.mem_cons_self ..)
      have hx7 : x ≤ 0x7F := by omega
      have hvrest : utf8Valid xs = true := by
        rw [utf8Valid_cons_ascii x xs hx7] at hv
        exact hv
      have hascii2 : ∀ b ∈ xs.take P, b < 128 := by
        intro b hb
        exact hascii b (by rw [List.take_succ_cons]; exact List.mem_cons_of_mem _ hb)
      unfold isCharBoundary
      rw [if_neg (by omega : ¬ (P + 1 = 0))]
      by_cases hlt : P + 1 < (x :: xs).length
      · rw [if_pos hlt]
        have hgd : (x :: xs).getD (P + 1) 0 = xs.getD P 0 := List.getD_cons_succ
        rw [hgd]
        have hPlen : P < xs.length := by
          simp only [List.length_cons] at hlt
          omega
        by_cases hP0 : P = 0
        · subst hP0
          cases xs with
          | nil => simp at hPlen
          | cons y ys =>
            have hhead := utf8_head y ys hvrest
            simp only [List.getD_cons_zero, Bool.or_eq_true, decide_eq_true_eq]
            omega
        · have hbd := ih hvrest P (by omega) hascii2
          unfold isCharBoundary at hbd
          rw [if_neg hP0, if_pos hPlen] at hbd
          exact hbd
      · rw [if_neg hlt]
        have he : P + 1 = (x :: xs).length := by omega
        simp [he]

theorem getD_set_self {α : Type} (l : List α) (k : Nat) (a d : α) (hk : k < l.length) :
    (l.set k a).getD k d = a := by
  rw [List.getD_eq_getElem?_getD, List.getElem?_set_self hk]
  rfl

theorem getD_set_of_ne {α : Type} (l : List α) (k m : Nat) (a d : α) (h : k ≠ m) :
    (l.set k a).getD m d = l.getD m d := by
  rw [List.getD_eq_getElem?_getD, List.getElem?_set_ne h, ← List.getD_eq_getElem?_getD]

/-! ### Claim C8 (corrected) -/

/-- Counterexample to C8 as stated: replacing the first token of the encoded
zero-seed phrase with the 5-byte string of bytes 97 97 97 32 97 — a valid
UTF-8 string of length at least 3 whose first 3 characters match the original
word — makes decoding fail (the embedded space changes the token count), so
the decoder does not return the seed. -/
theorem C8_prefix_counterexample :
    (3 : Nat) ≤ ([97, 97, 97, 32, 97] : List Nat).length
    ∧ utf8Valid [97, 97, 97, 32, 97] = true
    ∧ ([97, 97, 97, 32, 97] : List Nat).take 3
        = ((encWords demoDict demoHash demoSeed).getD 0 []).take 3
    ∧ seed_phrase_to_seed demoDict 3 demoHash
        (joinW ((encWords demoDict demoHash demoSeed).set 0 [97, 97, 97, 32, 97]))
        ≠ .ok demoSeed := by
  refine ⟨by decide, by decide, by decide, by decide⟩

/-- C8 as amended: replacing any one of the 15 encoded tokens with any valid
UTF-8, space-free string of length at least P whose first P bytes equal those
of the original word still decodes to the original seed. -/
theorem C8_prefix_acceptance (D : List (List Nat)) (P : Nat)
    (hash : List Nat → List Nat) (hc : DictContract D P) (hh : HashBytes hash)
    (s : List Nat) (hs : ValidSeed s) (k : Nat) (hk : k < 15) (t : List Nat)
    (hutf : utf8Valid t = true) (hlen : P ≤ t.length) (hnospace : 32 ∉ t)
    (htake : t.take P = ((encWords D hash s).getD k []).take P) :
    seed_phrase_to_seed D P hash (joinW ((encWords D hash s).set k t)) = .ok s := by
  have hwlen : (encWords D hash s).length = 15 := encWords_length D hash s
  have hwk : (encWords D hash s).getD k [] ∈ D := by
    apply encWords_mem_dict D P hash s hc hh
    apply getD_mem
    omega
  have htascii : ∀ b ∈ t.take P, b < 128 := by
    intro b hb
    rw [htake] at hb
    exact (hc.ascii _ hwk b (mem_of_mem_take b P _ hb)).1
  apply decode_of_take_matching D P hash hc s hs
  · rw [List.length_set]
    exact hwlen
  · intro tok htok
    rcases List.mem_or_eq_of_mem_set htok with htok2 | rfl
    · intro h32
      exact (hc.ascii tok (encWords_mem_dict D P hash s hc hh tok htok2) 32 h32).2 rfl
    · exact hnospace
  · intro tok htok
    rcases List.mem_or_eq_of_mem_set htok with htok2 | rfl
    · have htokD := encWords_mem_dict D P hash s hc hh tok htok2
      exact ⟨hc.minLen tok htokD,
        isCharBoundary_of_ascii tok P (hc.minLen tok htokD)
          (fun b hb => (hc.ascii tok htokD b hb).1)⟩
    · exact ⟨hlen, boundary_of_valid tok hutf P hlen htascii⟩
  · intro m hm
    by_cases hmk : m = k
    · subst hmk
      rw [getD_set_self _ _ _ _ (by omega)]
      exact htake
    · rw [getD_set_of_ne _ _ _ _ _ (fun h => hmk h.symm)]

/-- Witness for the amended C8: replace token 0 of the encoded zero-seed
phrase by the 4-byte token 97 97 97 98 (same first three bytes, extra byte);
decoding still returns the zero seed. -/
theorem C8_prefix_acceptance_witness :
    DictContract demoDict 3 ∧ HashBytes demoHash ∧ ValidSeed demoSeed
    ∧ (0 : Nat) < 15 ∧ utf8Valid [97, 97, 97, 98] = true
    ∧ (3 : Nat) ≤ ([97, 97, 97, 98] : List Nat).length
    ∧ (32 : Nat) ∉ ([97, 97, 97, 98] : List Nat)
    ∧ ([97, 97, 97, 98] : List Nat).take 3
        = ((encWords demoDict demoHash demoSeed).getD 0 []).take 3
    ∧ seed_phrase_to_seed demoDict 3 demoHash
        (joinW ((encWords demoDict demoHash demoSeed).set 0 [97, 97, 97, 98]))
      = .ok demoSeed :=
  ⟨demoDict_contract, demoHash_bytes, demoSeed_valid, by decide, by decide, by decide,
    by decide, by decide,
    C8_prefix_acceptance demoDict 3 demoHash demoDict_contract demoHash_bytes demoSeed
      demoSeed_valid 0 (by decide) [97, 97, 97, 98] (by decide) (by decide) (by decide)
      (by decide)⟩

/-! ### Claim C6 (code bug): decoding panics on some valid UTF-8 input -/

/-- c6Phrase: fifteen copies of the 4-byte token 97 97 195 169 (the UTF-8
string made of two ASCII letters followed by a 2-byte character), joined by
single spaces.  Slicing any token at byte 3 cuts the 2-byte character. -/
def c6Phrase : List Nat := joinW (List.replicate 15 [97, 97, 195, 169])

/-- C6 refutation: c6Phrase is valid UTF-8 and splits into exactly 15 tokens,
yet seed_phrase_to_seed panics on it (the byte slice at index 3 of the first
token is not a character boundary), instead of returning a typed error. -/
theorem C6_panic_on_unicode :
    utf8Valid c6Phrase = true
    ∧ (splitOnSpace c6Phrase).length = 15
    ∧ seed_phrase_to_seed demoDict 3 demoHash c6Phrase = .panicked :=
  ⟨by decide, by decide, by decide⟩

/-! ### Claim C9 (corrected) -/

/-- c9Phrase: first token 97 97 195 169 (panics when sliced at byte 3), second
token 97 97 (shorter than the minimum length), then thirteen 3-byte tokens. -/
def c9Phrase : List Nat :=
  joinW ([[97, 97, 195, 169], [97, 97]] ++ List.replicate 13 [97, 97, 97])

/-- Counterexample to C9 as stated: c9Phrase has 15 tokens, one of which is
shorter than the unique-prefix length 3, and it is valid UTF-8; yet decoding
panics (on the earlier token's byte slice) instead of failing with the
malformed-word error. -/
theorem C9_malformed_counterexample :
    (splitOnSpace c9Phrase).length = 15
    ∧ (∃ m, m < 15 ∧ ((splitOnSpace c9Phrase).getD m []).length < 3)
    ∧ utf8Valid c9Phrase = true
    ∧ seed_phrase_to_seed demoDict 3 demoHash c9Phrase = .panicked
    ∧ seed_phrase_to_seed demoDict 3 demoHash c9Phrase ≠ .err .malformedWord :=
  ⟨by decide, ⟨1, by decide, by decide⟩, by decide, by decide, by decide⟩

theorem truncateWords_tooShort (P : Nat) : ∀ (ws : List (List Nat)),
    (∃ m, m < ws.length ∧ (ws.getD m []).length < P) →
    (∀ j, j < ws.length → (∀ i, i ≤ j → P ≤ (ws.getD i []).length) →
      isCharBoundary (ws.getD j []) P = true) →
    truncateWords P ws = .tooShort := by
  intro ws
  induction ws with
  | nil =>
    rintro ⟨m, hm, _⟩ _
    simp at hm
  | cons w ws ih =>
    rintro ⟨m, hm, hshort⟩ hpre
    unfold truncateWords
    by_cases hw : w.length < P
    · rw [if_pos hw]
    · rw [if_neg hw]
      have hbd : isCharBoundary w P = true := by
        have h0 := hpre 0 (by simp) (fun i hi => by
          have hi0 : i = 0 := by omega
          subst hi0
          simp only [List.getD_cons_zero]
          omega)
        simpa using h0
      rw [if_pos hbd]
      have hrec : truncateWords P ws = .tooShort := by
        apply ih
        · refine ⟨m - 1, ?_, ?_⟩
          · cases m with
            | zero =>
              simp only [List.getD_cons_zero] at hshort
              omega
            | succ m2 =>
              simp only [List.length_cons] at hm
              simpa using hm
          · cases m with
            | zero =>
              simp only [List.getD_cons_zero] at hshort
              omega
            | succ m2 =>
              simp only [List.getD_cons_succ] at hshort
              simpa using hshort
        · intro j hj hall
          have hnext := hpre (j + 1) (by simp only [List.length_cons]; omega)
            (fun i hi => by
              cases i with
              | zero =>
                simp only [List.getD_cons_zero]
                omega
              | succ i2 =>
                simp only [List.getD_cons_succ]
                exact hall i2 (by omega))
          simpa using hnext
      rw [hrec]

/-- C9 as amended: a 15-token phrase containing a token shorter than the
unique-prefix length P fails with the malformed-word error (distinct from the
unknown-word error and raised before any dictionary index lookup), provided
every token whose bytes up to its position are all long enough can be sliced
at byte P on a character boundary (always true for ASCII tokens). -/
theorem C9_malformed_gate (D : List (List Nat)) (P : Nat) (hash : List Nat → List Nat)
    (phrase : List Nat)
    (h15 : (splitOnSpace phrase).length = 15)
    (hshort : ∃ m, m < 15 ∧ ((splitOnSpace phrase).getD m []).length < P)
    (hpre : ∀ j, j < 15 → (∀ i, i ≤ j → P ≤ ((splitOnSpace phrase).getD i []).length) →
      isCharBoundary ((splitOnSpace phrase).getD j []) P = true) :
    seed_phrase_to_seed D P hash phrase = .err .malformedWord := by
  unfold seed_phrase_to_seed
  rw [if_neg (by rw [h15]; unfold SEED_ENTROPY_WORDS SEED_CHECKSUM_WORDS; omega)]
  unfold decodeTrunc
  rw [truncateWords_tooShort P (splitOnSpace phrase)
    (by rw [h15]; exact hshort) (by rw [h15]; exact hpre)]

/-- Witness for the amended C9: a 15-token all-ASCII phrase whose second token
has only two bytes fails with the malformed-word error. -/
theorem C9_malformed_gate_witness :
    (splitOnSpace (joinW ([[97, 97, 97], [97, 97]]
        ++ List.replicate 13 [97, 97, 97]))).length = 15
    ∧ (∃ m, m < 15 ∧ ((splitOnSpace (joinW ([[97, 97, 97], [97, 97]]
        ++ List.replicate 13 [97, 97, 97]))).getD m []).length < 3)
    ∧ seed_phrase_to_seed demoDict 3 demoHash
        (joinW ([[97, 97, 97], [97, 97]] ++ List.replicate 13 [97, 97, 97]))
      = .err .malformedWord :=
  ⟨by decide, ⟨1, by decide, by decide⟩,
    C9_malformed_gate demoDict 3 demoHash
      (joinW ([[97, 97, 97], [97, 97]] ++ List.replicate 13 [97, 97, 97]))
      (by decide) ⟨1, by decide, by decide⟩ (by decide)⟩

end Seed15
